import Mathlib

/-!
# A verification development for the omicron-package build tooling

This file gives a shallow embedding, in Lean 4, of the core data model and
algorithms of the `omicron-package` repository, and proves (or refutes)
properties of them.  Each definition is translated from the Rust source
file named in its doc comment.  Filesystem and network effects are made
explicit: the filesystem appears as a function argument (for example a
digest oracle `String → Option Digest`), and effectful steps are returned
as explicit data (for example the list of files that were hashed).

Conventions:
* Rust `anyhow::Result<T>` becomes `Except String T` (or a dedicated error
  type when the source has one).
* Rust paths (`Utf8PathBuf`) become `String`; character-level string
  algorithms (interpolation, target parsing, identifier validation) are
  modelled on `List Char` or on byte lists (`List Nat`) so that the
  byte-by-byte behaviour of the source is captured.
* `BTreeMap` becomes an association list; where the map's key ordering or
  key uniqueness matters it is stated as an explicit hypothesis.
-/

set_option autoImplicit false

namespace OmicronPackage

/-! ## Data model: digests and build inputs (`src/digest.rs`, `src/input.rs`) -/

/-- `Digest` from `src/digest.rs`: a tagged hex-encoded digest. -/
inductive Digest where
  | Sha2 (hex : String)
  | Blake3 (hex : String)
deriving DecidableEq, Repr

/-- `PrebuiltBlob` from `src/package.rs`: a Buildomat artifact reference. -/
structure PrebuiltBlob where
  repo : String
  series : String
  commit : String
  artifact : String
  sha256 : String
deriving DecidableEq, Repr

/-- `blob::Source` from `src/blob.rs`: where a downloadable blob lives. -/
inductive Source where
  | S3 (path : String)
  | Buildomat (spec : PrebuiltBlob)
deriving DecidableEq, Repr

/-- `MappedPath` from `src/input.rs`: a host path `from` mapped to a target
path `to`.  (`from` is a Lean keyword, hence the field name `from_`.) -/
structure MappedPath where
  from_ : String
  to_ : String
deriving DecidableEq, Repr

/-- `BuildInput` from `src/input.rs`: one input used to construct a package. -/
inductive BuildInput where
  | AddInMemoryFile (dst_path : String) (contents : String)
  | AddDirectory (target : String)
  | AddFile (mapped_path : MappedPath) (len : Nat)
  | AddBlob (path : MappedPath) (blob : Source)
  | AddPackage (package : String)
deriving DecidableEq, Repr

/-- `BuildInput::input_path` from `src/input.rs` lines 77-88: the host path of
an input, when it has one. -/
def BuildInput.input_path : BuildInput → Option String
  | .AddInMemoryFile _ _ => none
  | .AddDirectory _ => none
  | .AddFile mapped_path _ => some mapped_path.from_
  | .AddBlob path _ => some path.from_
  | .AddPackage target_package => some target_package

/-! ## Data model: packages (`src/package.rs`) -/

/-- `RustPackage` from `src/package.rs`. -/
structure RustPackage where
  binary_names : List String
  release : Bool
deriving DecidableEq, Repr

/-- `InterpolatedMappedPath` from `src/package.rs`: a pair of path templates
(the template strings are kept opaque here). -/
structure InterpolatedMappedPath where
  from_ : String
  to_ : String
deriving DecidableEq, Repr

/-- `PackageSource` from `src/package.rs`. -/
inductive PackageSource where
  | Local (blobs : Option (List String)) (buildomat_blobs : Option (List PrebuiltBlob))
      (rust : Option RustPackage) (paths : List InterpolatedMappedPath)
  | Prebuilt (repo : String) (commit : String) (sha256 : String)
  | Composite (packages : List String)
  | Manual
deriving DecidableEq, Repr

/-- `PackageOutput` from `src/package.rs`. -/
inductive PackageOutput where
  | Zone (intermediate_only : Bool)
  | Tarball
deriving DecidableEq, Repr

/-- `Package` from `src/package.rs`.  `only_for_targets` is a
`BTreeMap<String, String>` in the source, modelled as an association list. -/
structure Package where
  service_name : String
  source : PackageSource
  output : PackageOutput
  only_for_targets : Option (List (String × String))
  setup_hint : Option String
deriving DecidableEq, Repr

/-! ## Identifier validation (`src/config/identifier.rs`)

The source validates the raw bytes of the identifier (`id.as_bytes()`),
so the model works on byte lists. -/

/-- `InvalidConfigIdent` from `src/config/identifier.rs`. -/
inductive InvalidConfigIdent where
  | Empty
  | NonAsciiPrintable
  | StartsWithNonLetter
  | ContainsInvalidCharacters
deriving DecidableEq, Repr

/-- `u8::is_ascii_alphabetic` on a byte value. -/
def isAsciiAlphabetic (b : Nat) : Bool :=
  (65 ≤ b && b ≤ 90) || (97 ≤ b && b ≤ 122)

/-- `u8::is_ascii_alphanumeric` on a byte value. -/
def isAsciiAlphanumeric (b : Nat) : Bool :=
  isAsciiAlphabetic b || (48 ≤ b && b ≤ 57)

/-- The byte condition of the scanning loop in `ConfigIdent::validate`:
ASCII alphanumeric, `_` (95) or `-` (45). -/
def isIdentByte (b : Nat) : Bool :=
  isAsciiAlphanumeric b || b == 95 || b == 45

/-- `ConfigIdent::validate` from `src/config/identifier.rs` lines 134-160.
The `while let` loop that advances over valid bytes and stops at the first
invalid one is translated as `dropWhile`; the remaining bytes must be empty. -/
def ConfigIdent.validate : List Nat → Except InvalidConfigIdent Unit
  | [] => .error .Empty
  | b0 :: rest =>
    if ¬ isAsciiAlphabetic b0 then .error .StartsWithNonLetter
    else
      let bytes := rest.dropWhile (fun next => isIdentByte next)
      if ¬ bytes.isEmpty then .error .ContainsInvalidCharacters
      else .ok ()

/-- `ConfigIdent::new` from `src/config/identifier.rs`: validate, then wrap
the string. -/
def ConfigIdent.new (s : List Nat) : Except InvalidConfigIdent (List Nat) :=
  (ConfigIdent.validate s).map (fun _ => s)

/-- `PackageName::new` (the `ident_newtype!` expansion delegates to
`ConfigIdent::new`). -/
def PackageName.new (s : List Nat) : Except InvalidConfigIdent (List Nat) :=
  ConfigIdent.new s

/-- `ServiceName::new` (delegates to `ConfigIdent::new`). -/
def ServiceName.new (s : List Nat) : Except InvalidConfigIdent (List Nat) :=
  ConfigIdent.new s

/-- `PresetName::new` (delegates to `ConfigIdent::new`). -/
def PresetName.new (s : List Nat) : Except InvalidConfigIdent (List Nat) :=
  ConfigIdent.new s

theorem configIdent_validate_ok_iff (s : List Nat) :
    ConfigIdent.validate s = .ok () ↔
      s ≠ [] ∧ isAsciiAlphabetic (s.headD 0) = true ∧ ∀ b ∈ s, isIdentByte b = true := by
  cases s with
  | nil => simp [ConfigIdent.validate]
  | cons b0 rest =>
    constructor
    · intro h
      simp only [ConfigIdent.validate] at h
      by_cases h0 : isAsciiAlphabetic b0 = true
      · rw [if_neg (by simp [h0])] at h
        by_cases hdrop : (rest.dropWhile (fun next => isIdentByte next)).isEmpty = true
        · refine ⟨by simp, by simpa using h0, ?_⟩
          intro b hb
          rw [List.mem_cons] at hb
          rcases hb with rfl | hb
          · simp [isIdentByte, isAsciiAlphanumeric, h0]
          · rw [List.isEmpty_iff, List.dropWhile_eq_nil_iff] at hdrop
            exact hdrop b hb
        · rw [if_pos (by simpa using hdrop)] at h
          exact absurd h (by simp)
      · rw [if_pos (by simpa using h0)] at h
        exact absurd h (by simp)
    · rintro ⟨-, h0, hall⟩
      simp only [List.headD_cons] at h0
      have hdrop : (rest.dropWhile (fun next => isIdentByte next)).isEmpty = true := by
        rw [List.isEmpty_iff, List.dropWhile_eq_nil_iff]
        exact fun x hx => hall x (List.mem_cons_of_mem _ hx)
      simp [ConfigIdent.validate, h0, hdrop]

/-- C6 helper: the success case of `ConfigIdent.new` returns the input. -/
theorem configIdent_new_ok_iff (s : List Nat) :
    ConfigIdent.new s = .ok s ↔ ConfigIdent.validate s = .ok () := by
  unfold ConfigIdent.new
  cases h : ConfigIdent.validate s with
  | ok u => cases u; simp [h, Except.map]
  | error e => simp [h, Except.map]

/-- C6: identifier construction via `new` (for `ConfigIdent` and its flavors
`PackageName`, `ServiceName`, `PresetName`) succeeds if and only if the input
is non-empty, its first byte is an ASCII letter, and every byte is ASCII
alphanumeric, `_` or `-`; on failure the error is `Empty` for the empty
string, `StartsWithNonLetter` when the first byte is not an ASCII letter,
and `ContainsInvalidCharacters` when a later byte is invalid. -/
theorem ident_new_valid_iff (s : List Nat) :
    ((ConfigIdent.new s = .ok s ∧ PackageName.new s = .ok s ∧
        ServiceName.new s = .ok s ∧ PresetName.new s = .ok s) ↔
      (s ≠ [] ∧ isAsciiAlphabetic (s.headD 0) = true ∧ ∀ b ∈ s, isIdentByte b = true))
    ∧ (s = [] → ConfigIdent.new s = .error .Empty)
    ∧ (∀ b0 rest, s = b0 :: rest → isAsciiAlphabetic b0 = false →
        ConfigIdent.new s = .error .StartsWithNonLetter)
    ∧ (∀ b0 rest, s = b0 :: rest → isAsciiAlphabetic b0 = true →
        (∃ b ∈ rest, isIdentByte b = false) →
        ConfigIdent.new s = .error .ContainsInvalidCharacters) := by
  refine ⟨?_, ?_, ?_, ?_⟩
  · have hiff := configIdent_validate_ok_iff s
    unfold PackageName.new ServiceName.new PresetName.new
    rw [configIdent_new_ok_iff] at *
    constructor
    · intro h
      exact hiff.mp h.1
    · intro h
      have := hiff.mpr h
      exact ⟨this, this, this, this⟩
  · rintro rfl
    simp [ConfigIdent.new, ConfigIdent.validate, Except.map]
  · rintro b0 rest rfl h0
    simp [ConfigIdent.new, ConfigIdent.validate, h0, Except.map]
  · rintro b0 rest rfl h0 ⟨b, hb, hbad⟩
    have hdrop : (rest.dropWhile (fun next => isIdentByte next)).isEmpty = false := by
      rw [Bool.eq_false_iff]
      intro hcon
      rw [List.isEmpty_iff, List.dropWhile_eq_nil_iff] at hcon
      have := hcon b hb
      rw [hbad] at this
      exact Bool.false_ne_true this
    simp [ConfigIdent.new, ConfigIdent.validate, h0, hdrop, Except.map]

/-- Witness for C6: concrete instances of each clause of
`ident_new_valid_iff` (identifiers "a1-b", "", "1a", "a!"). -/
theorem ident_new_valid_iff_witness :
    ConfigIdent.new [97, 49, 45, 98] = .ok [97, 49, 45, 98]
    ∧ ConfigIdent.new [] = .error .Empty
    ∧ ConfigIdent.new [49, 97] = .error .StartsWithNonLetter
    ∧ ConfigIdent.new [97, 33] = .error .ContainsInvalidCharacters := by
  refine ⟨((ident_new_valid_iff [97, 49, 45, 98]).1.mpr (by decide)).1, ?_, ?_, ?_⟩
  · exact (ident_new_valid_iff []).2.1 rfl
  · exact (ident_new_valid_iff [49, 97]).2.2.1 49 [97] rfl (by decide)
  · exact (ident_new_valid_iff [97, 33]).2.2.2 97 [33] rfl (by decide) ⟨33, by decide, by decide⟩

/-! ## Target filter (`src/target.rs`) -/

/-- `TargetMap::includes_package` from `src/target.rs` lines 21-45.  The
target map (`self`) and `only_for_targets` are association lists standing
for the source's `BTreeMap`s; the `for` loop with early `return false` is
translated as `List.all`. -/
def TargetMap.includes_package (self : List (String × String)) (pkg : Package) : Bool :=
  match pkg.only_for_targets with
  | none => true
  | some valid_targets =>
    valid_targets.all (fun kv =>
      match self.lookup kv.1 with
      | none => false
      | some target_value => target_value == kv.2)

/-- C7: `includes_package` returns true iff every key-value pair listed in
`only_for_targets` is present in the target map with an equal value; a listed
key absent from the map excludes the package, and a package with no
`only_for_targets` is always included. -/
theorem includes_package_iff (self : List (String × String)) (pkg : Package) :
    (TargetMap.includes_package self pkg = true ↔
      ∀ kv ∈ pkg.only_for_targets.getD [], self.lookup kv.1 = some kv.2)
    ∧ (pkg.only_for_targets = none → TargetMap.includes_package self pkg = true)
    ∧ (∀ ts kv, pkg.only_for_targets = some ts → kv ∈ ts → self.lookup kv.1 = none →
        TargetMap.includes_package self pkg = false) := by
  refine ⟨?_, ?_, ?_⟩
  · cases hof : pkg.only_for_targets with
    | none => simp [TargetMap.includes_package, hof]
    | some ts =>
      simp only [TargetMap.includes_package, hof, Option.getD_some, List.all_eq_true]
      constructor
      · intro h kv hkv
        have := h kv hkv
        cases hl : self.lookup kv.1 with
        | none => rw [hl] at this; exact absurd this (by simp)
        | some v =>
          rw [hl] at this
          simp only [beq_iff_eq] at this
          rw [this]
      · intro h kv hkv
        rw [h kv hkv]
        simp
  · intro h
    simp [TargetMap.includes_package, h]
  · intro ts kv hof hkv hl
    simp only [TargetMap.includes_package, hof]
    rw [List.all_eq_false]
    exact ⟨kv, hkv, by simp [hl]⟩

/-- Witness for C7: a package restricted to `image=standard` is included by a
matching target, excluded when the key is absent. -/
theorem includes_package_iff_witness :
    TargetMap.includes_package [("image", "standard")]
      { service_name := "svc", source := .Manual, output := .Tarball,
        only_for_targets := some [("image", "standard")], setup_hint := none } = true
    ∧ TargetMap.includes_package []
      { service_name := "svc", source := .Manual, output := .Tarball,
        only_for_targets := some [("image", "standard")], setup_hint := none } = false := by
  constructor
  · exact (includes_package_iff [("image", "standard")]
      { service_name := "svc", source := .Manual, output := .Tarball,
        only_for_targets := some [("image", "standard")], setup_hint := none }).1.mpr
      (by decide)
  · exact (includes_package_iff []
      { service_name := "svc", source := .Manual, output := .Tarball,
        only_for_targets := some [("image", "standard")], setup_hint := none }).2.2
      [("image", "standard")] ("image", "standard") rfl (by decide) (by decide)


/-! ## String interpolation (`src/package.rs` lines 866-899)

`InterpolatedString::interpolate` scans its string left to right for
placeholders.  The string is modelled as a `List Char` and the target as a
`List (List Char × List Char)` standing for the `BTreeMap` inside `Target`. -/

/-- The first index at which `pat` occurs as a contiguous substring of `s`
(`str::find` with a literal pattern). -/
def findSub (pat : List Char) : List Char → Option Nat
  | [] => if pat.isPrefixOf ([] : List Char) then some 0 else none
  | c :: rest =>
    if pat.isPrefixOf (c :: rest) then some 0
    else (findSub pat rest).map (· + 1)

/-- `START_STR` from `InterpolatedString::interpolate`. -/
def START_STR : List Char := ['\x7b', '\x7b']

/-- `END_STR` from `InterpolatedString::interpolate`. -/
def END_STR : List Char := ['\x7d', '\x7d']

/-- The two `bail!` branches of `InterpolatedString::interpolate`. -/
inductive InterpError where
  | MissingClosing
  | MissingKey (key : List Char)
deriving DecidableEq, Repr

theorem findSub_isSome_le {pat s : List Char} {i : Nat}
    (h : findSub pat s = some i) : i + pat.length ≤ s.length := by
  induction s generalizing i with
  | nil =>
    unfold findSub at h
    by_cases hp : pat.isPrefixOf ([] : List Char) = true
    · rw [if_pos hp] at h
      cases h
      simpa using (List.isPrefixOf_iff_prefix.mp hp).length_le
    · rw [if_neg hp] at h
      cases h
  | cons c rest ih =>
    unfold findSub at h
    by_cases hp : pat.isPrefixOf (c :: rest) = true
    · rw [if_pos hp] at h
      cases h
      simpa using (List.isPrefixOf_iff_prefix.mp hp).length_le
    · rw [if_neg hp] at h
      simp only [Option.map_eq_some'] at h
      obtain ⟨j, hj, rfl⟩ := h
      have := ih hj
      simp only [List.length_cons]
      omega

theorem findSub_eq_none_iff {pat s : List Char} :
    findSub pat s = none ↔ ∀ i, pat.isPrefixOf (s.drop i) = false := by
  induction s with
  | nil =>
    unfold findSub
    by_cases hp : pat.isPrefixOf ([] : List Char) = true
    · rw [if_pos hp]
      constructor
      · intro h; cases h
      · intro h
        have := h 0
        simp only [List.drop_nil] at this
        rw [hp] at this
        cases this
    · rw [if_neg hp]
      constructor
      · intro _ i
        simp only [List.drop_nil]
        exact Bool.eq_false_iff.mpr hp
      · intro _
        rfl
  | cons c rest ih =>
    unfold findSub
    by_cases hp : pat.isPrefixOf (c :: rest) = true
    · rw [if_pos hp]
      constructor
      · intro h; cases h
      · intro h
        have := h 0
        simp only [List.drop_zero] at this
        rw [hp] at this
        cases this
    · rw [if_neg hp]
      constructor
      · intro h i
        have hrest : findSub pat rest = none := by
          cases hfs : findSub pat rest with
          | none => rfl
          | some j => rw [hfs] at h; simp at h
        match i with
        | 0 => simpa using Bool.eq_false_iff.mpr hp
        | Nat.succ j =>
          have := (ih.mp hrest) j
          simpa [List.drop_succ_cons] using this
      · intro h
        have : findSub pat rest = none := ih.mpr (fun j => by
          have := h (j + 1)
          simpa [List.drop_succ_cons] using this)
        simp [this]

theorem findSub_eq_some_iff {pat s : List Char} {i : Nat} :
    findSub pat s = some i ↔
      pat.isPrefixOf (s.drop i) = true ∧ ∀ j, j < i → pat.isPrefixOf (s.drop j) = false := by
  induction s generalizing i with
  | nil =>
    unfold findSub
    by_cases hp : pat.isPrefixOf ([] : List Char) = true
    · rw [if_pos hp]
      constructor
      · intro h
        cases h
        exact ⟨by simpa using hp, fun j hj => absurd hj (Nat.not_lt_zero j)⟩
      · rintro ⟨h1, h2⟩
        cases i with
        | zero => rfl
        | succ n =>
          have := h2 0 (Nat.succ_pos n)
          simp only [List.drop_nil] at this
          rw [hp] at this
          cases this
    · rw [if_neg hp]
      constructor
      · intro h
        cases h
      · rintro ⟨h1, -⟩
        simp only [List.drop_nil] at h1
        exact absurd h1 hp
  | cons c rest ih =>
    unfold findSub
    by_cases hp : pat.isPrefixOf (c :: rest) = true
    · rw [if_pos hp]
      constructor
      · intro h
        cases h
        exact ⟨by simpa using hp, fun j hj => absurd hj (Nat.not_lt_zero j)⟩
      · rintro ⟨h1, h2⟩
        cases i with
        | zero => rfl
        | succ n =>
          have := h2 0 (Nat.succ_pos n)
          simp only [List.drop_zero] at this
          rw [hp] at this
          cases this
    · rw [if_neg hp]
      constructor
      · intro h
        simp only [Option.map_eq_some'] at h
        obtain ⟨j, hj, rfl⟩ := h
        obtain ⟨hj1, hj2⟩ := ih.mp hj
        refine ⟨by simpa [List.drop_succ_cons] using hj1, ?_⟩
        intro k hk
        match k with
        | 0 => simpa using Bool.eq_false_iff.mpr hp
        | Nat.succ m =>
          have := hj2 m (by omega)
          simpa [List.drop_succ_cons] using this
      · rintro ⟨h1, h2⟩
        cases i with
        | zero =>
          simp only [List.drop_zero] at h1
          exact absurd h1 hp
        | succ n =>
          have : findSub pat rest = some n := ih.mpr
            ⟨by simpa [List.drop_succ_cons] using h1,
             fun j hj => by
               have := h2 (j + 1) (by omega)
               simpa [List.drop_succ_cons] using this⟩
          simp [this]

/-- The scanning loop of `InterpolatedString::interpolate` from
`src/package.rs` lines 873-899.  `output` is the accumulator the source
builds with `push_str`; `input` is the remaining slice. -/
def InterpolatedString.interpolateGo (target : List (List Char × List Char))
    (output input : List Char) : Except InterpError (List Char) :=
  match hfind : findSub START_STR input with
  | none => .ok (output ++ input)
  | some sub_idx =>
    let input2 := input.drop (sub_idx + START_STR.length)
    match findSub END_STR input2 with
    | none => .error .MissingClosing
    | some end_idx =>
      let key := input2.take end_idx
      match List.lookup key target with
      | none => .error (.MissingKey key)
      | some value =>
        InterpolatedString.interpolateGo target (output ++ input.take sub_idx ++ value)
          (input2.drop (end_idx + END_STR.length))
termination_by input.length
decreasing_by
  have h2 : sub_idx + START_STR.length ≤ input.length := findSub_isSome_le hfind
  simp only [START_STR, END_STR, List.length_cons, List.length_nil, List.length_drop] at h2 ⊢
  omega

/-- `InterpolatedString::interpolate` from `src/package.rs` lines 873-899:
the loop starts with an empty output accumulator and the whole string. -/
def InterpolatedString.interpolate (target : List (List Char × List Char))
    (s : List Char) : Except InterpError (List Char) :=
  InterpolatedString.interpolateGo target [] s



theorem interpolateGo_accum (target : List (List Char × List Char)) :
    ∀ (n : Nat) (output input : List Char), input.length ≤ n →
      InterpolatedString.interpolateGo target output input =
        (InterpolatedString.interpolateGo target [] input).map (fun o => output ++ o) := by
  intro n
  induction n with
  | zero =>
    intro output input hlen
    have hnil : input = [] := List.length_eq_zero.mp (Nat.le_zero.mp hlen)
    subst hnil
    rw [InterpolatedString.interpolateGo, InterpolatedString.interpolateGo]
    simp [findSub, START_STR, Except.map]
  | succ n ih =>
    intro output input hlen
    rw [InterpolatedString.interpolateGo]
    conv_rhs => rw [InterpolatedString.interpolateGo]
    split
    next hfind => simp [Except.map]
    next sub_idx hfind =>
      have hsub : sub_idx + START_STR.length ≤ input.length := findSub_isSome_le hfind
      simp only [List.nil_append]
      split
      next => simp [Except.map]
      next end_idx hend =>
        split
        next => simp [Except.map]
        next value hvalue =>
          have hlen2 :
              ((input.drop (sub_idx + START_STR.length)).drop
                (end_idx + END_STR.length)).length ≤ n := by
            simp only [List.length_drop, START_STR, END_STR, List.length_cons,
              List.length_nil] at hsub ⊢
            omega
          have e1 := ih (output ++ input.take sub_idx ++ value)
            ((input.drop (sub_idx + START_STR.length)).drop (end_idx + END_STR.length)) hlen2
          have e2 := ih (input.take sub_idx ++ value)
            ((input.drop (sub_idx + START_STR.length)).drop (end_idx + END_STR.length)) hlen2
          rw [e1, e2]
          cases hgo : InterpolatedString.interpolateGo target []
              ((input.drop (sub_idx + START_STR.length)).drop (end_idx + END_STR.length)) with
          | ok o => simp [Except.map, List.append_assoc]
          | error e => simp [Except.map]



theorem findSub_eq_none_of_bounded {pat s : List Char} (hpat : pat ≠ [])
    (h : ∀ i, i < s.length → pat.isPrefixOf (s.drop i) = false) :
    findSub pat s = none := by
  rw [findSub_eq_none_iff]
  intro i
  by_cases hi : i < s.length
  · exact h i hi
  · have hdrop : s.drop i = [] := List.drop_eq_nil_of_le (by omega)
    rw [hdrop]
    cases pat with
    | nil => exact absurd rfl hpat
    | cons p ps => rfl

theorem findSub_append_pat {pat a t : List Char}
    (hno : ∀ j, j < a.length → pat.isPrefixOf ((a ++ pat ++ t).drop j) = false) :
    findSub pat (a ++ pat ++ t) = some a.length := by
  rw [findSub_eq_some_iff]
  refine ⟨?_, hno⟩
  have hdrop : (a ++ pat ++ t).drop a.length = pat ++ t := by
    rw [List.append_assoc, List.drop_left]
  rw [hdrop]
  exact List.isPrefixOf_iff_prefix.mpr (List.prefix_append pat t)

theorem interpolateGo_of_findSub_none (target : List (List Char × List Char))
    (output input : List Char) (h : findSub START_STR input = none) :
    InterpolatedString.interpolateGo target output input = .ok (output ++ input) := by
  rw [InterpolatedString.interpolateGo]
  split
  · rfl
  next sub_idx hfind => rw [h] at hfind; cases hfind

theorem interpolateGo_of_findSub_some (target : List (List Char × List Char))
    (output input : List Char) (sub_idx end_idx : Nat) (value : List Char)
    (h1 : findSub START_STR input = some sub_idx)
    (h2 : findSub END_STR (input.drop (sub_idx + START_STR.length)) = some end_idx)
    (h3 : List.lookup ((input.drop (sub_idx + START_STR.length)).take end_idx) target
        = some value) :
    InterpolatedString.interpolateGo target output input =
      InterpolatedString.interpolateGo target (output ++ input.take sub_idx ++ value)
        ((input.drop (sub_idx + START_STR.length)).drop (end_idx + END_STR.length)) := by
  rw [InterpolatedString.interpolateGo]
  split
  next hfind => rw [h1] at hfind; cases hfind
  next sub' hfind =>
    rw [h1] at hfind
    injection hfind with he
    subst he
    dsimp only
    split
    next hend => rw [h2] at hend; cases hend
    next end' hend =>
      rw [h2] at hend
      injection hend with he2
      subst he2
      split
      next hval => rw [h3] at hval; cases hval
      next value' hval =>
        rw [h3] at hval
        injection hval with he3
        subst he3
        rfl

theorem interpolateGo_missing_closing (target : List (List Char × List Char))
    (output input : List Char) (sub_idx : Nat)
    (h1 : findSub START_STR input = some sub_idx)
    (h2 : findSub END_STR (input.drop (sub_idx + START_STR.length)) = none) :
    InterpolatedString.interpolateGo target output input = .error .MissingClosing := by
  rw [InterpolatedString.interpolateGo]
  split
  next hfind => rw [h1] at hfind; cases hfind
  next sub' hfind =>
    rw [h1] at hfind
    injection hfind with he
    subst he
    dsimp only
    split
    · rfl
    next end' hend => rw [h2] at hend; cases hend

theorem interpolateGo_missing_key (target : List (List Char × List Char))
    (output input : List Char) (sub_idx end_idx : Nat)
    (h1 : findSub START_STR input = some sub_idx)
    (h2 : findSub END_STR (input.drop (sub_idx + START_STR.length)) = some end_idx)
    (h3 : List.lookup ((input.drop (sub_idx + START_STR.length)).take end_idx) target = none) :
    InterpolatedString.interpolateGo target output input =
      .error (.MissingKey ((input.drop (sub_idx + START_STR.length)).take end_idx)) := by
  rw [InterpolatedString.interpolateGo]
  split
  next hfind => rw [h1] at hfind; cases hfind
  next sub' hfind =>
    rw [h1] at hfind
    injection hfind with he
    subst he
    dsimp only
    split
    next hend => rw [h2] at hend; cases hend
    next end' hend =>
      rw [h2] at hend
      injection hend with he2
      subst he2
      split
      next hval => rfl
      next value' hval => rw [h3] at hval; cases hval



/-- C8: interpolation is a left-to-right rewrite.  (1) A string with no
occurrence of the opening marker is returned unchanged, for every target
(in particular the empty one).  (2) A placeholder is scanned greedily from
the first opening marker to the next closing marker and replaced by the
target value of the key between them.  (3) A missing closing marker is an
error.  (4) A key absent from the target is an error naming the key. -/
theorem interpolate_spec :
    (∀ (target : List (List Char × List Char)) (s : List Char),
        (∀ i, i < s.length → START_STR.isPrefixOf (s.drop i) = false) →
        InterpolatedString.interpolate target s = .ok s)
    ∧ (∀ (target : List (List Char × List Char)) (a b c value : List Char),
        (∀ j, j < a.length →
          START_STR.isPrefixOf ((a ++ START_STR ++ (b ++ END_STR ++ c)).drop j) = false) →
        (∀ j, j < b.length → END_STR.isPrefixOf ((b ++ END_STR ++ c).drop j) = false) →
        List.lookup b target = some value →
        InterpolatedString.interpolate target (a ++ START_STR ++ (b ++ END_STR ++ c)) =
          (InterpolatedString.interpolate target c).map (fun o => a ++ value ++ o))
    ∧ (∀ (target : List (List Char × List Char)) (a b : List Char),
        (∀ j, j < a.length →
          START_STR.isPrefixOf ((a ++ START_STR ++ b).drop j) = false) →
        (∀ j, j < b.length → END_STR.isPrefixOf (b.drop j) = false) →
        InterpolatedString.interpolate target (a ++ START_STR ++ b) =
          .error .MissingClosing)
    ∧ (∀ (target : List (List Char × List Char)) (a b c : List Char),
        (∀ j, j < a.length →
          START_STR.isPrefixOf ((a ++ START_STR ++ (b ++ END_STR ++ c)).drop j) = false) →
        (∀ j, j < b.length → END_STR.isPrefixOf ((b ++ END_STR ++ c).drop j) = false) →
        List.lookup b target = none →
        InterpolatedString.interpolate target (a ++ START_STR ++ (b ++ END_STR ++ c)) =
          .error (.MissingKey b)) := by
  have hstart : (START_STR : List Char) ≠ [] := by simp [START_STR]
  have hdrop2 : ∀ (a t : List Char),
      (a ++ START_STR ++ t).drop (a.length + START_STR.length) = t := by
    intro a t
    rw [List.append_assoc, ← List.drop_drop, List.drop_left, List.drop_left]
  have htake : ∀ (a t : List Char), (a ++ START_STR ++ t).take a.length = a := by
    intro a t
    rw [List.append_assoc, List.take_left]
  have hdropEnd : ∀ (b c : List Char),
      (b ++ END_STR ++ c).drop (b.length + END_STR.length) = c := by
    intro b c
    rw [List.append_assoc, ← List.drop_drop, List.drop_left, List.drop_left]
  have htakeEnd : ∀ (b c : List Char), (b ++ END_STR ++ c).take b.length = b := by
    intro b c
    rw [List.append_assoc, List.take_left]
  refine ⟨?_, ?_, ?_, ?_⟩
  · intro target s hno
    unfold InterpolatedString.interpolate
    rw [interpolateGo_of_findSub_none target [] s (findSub_eq_none_of_bounded hstart hno)]
    rfl
  · intro target a b c value hA hB hval
    unfold InterpolatedString.interpolate
    have h1 : findSub START_STR (a ++ START_STR ++ (b ++ END_STR ++ c)) = some a.length :=
      findSub_append_pat hA
    have h2 : findSub END_STR
        ((a ++ START_STR ++ (b ++ END_STR ++ c)).drop (a.length + START_STR.length))
        = some b.length := by
      rw [hdrop2]
      exact findSub_append_pat hB
    have h3 : List.lookup
        (((a ++ START_STR ++ (b ++ END_STR ++ c)).drop (a.length + START_STR.length)).take
          b.length) target = some value := by
      rw [hdrop2, htakeEnd]
      exact hval
    rw [interpolateGo_of_findSub_some target [] _ a.length b.length value h1 h2 h3]
    rw [hdrop2, hdropEnd, htake]
    rw [interpolateGo_accum target c.length ([] ++ a ++ value) c (Nat.le_refl _)]
    cases InterpolatedString.interpolateGo target [] c with
    | ok o => simp [Except.map, List.append_assoc]
    | error e => simp [Except.map]
  · intro target a b hA hB
    unfold InterpolatedString.interpolate
    have h1 : findSub START_STR (a ++ START_STR ++ b) = some a.length :=
      findSub_append_pat hA
    have h2 : findSub END_STR ((a ++ START_STR ++ b).drop (a.length + START_STR.length))
        = none := by
      rw [hdrop2]
      exact findSub_eq_none_of_bounded (by simp [END_STR]) hB
    exact interpolateGo_missing_closing target [] _ a.length h1 h2
  · intro target a b c hA hB hval
    unfold InterpolatedString.interpolate
    have h1 : findSub START_STR (a ++ START_STR ++ (b ++ END_STR ++ c)) = some a.length :=
      findSub_append_pat hA
    have h2 : findSub END_STR
        ((a ++ START_STR ++ (b ++ END_STR ++ c)).drop (a.length + START_STR.length))
        = some b.length := by
      rw [hdrop2]
      exact findSub_append_pat hB
    have h3 : List.lookup
        (((a ++ START_STR ++ (b ++ END_STR ++ c)).drop (a.length + START_STR.length)).take
          b.length) target = none := by
      rw [hdrop2, htakeEnd]
      exact hval
    have := interpolateGo_missing_key target [] _ a.length b.length h1 h2 h3
    rw [this, hdrop2, htakeEnd]

/-- Witness for C8: interpolating "p«open»k«close»q" against a target binding
key `k` to `v` yields "pvq"; a placeholder-free string is unchanged. -/
theorem interpolate_spec_witness :
    InterpolatedString.interpolate [(['k'], ['v'])]
      (['p'] ++ START_STR ++ (['k'] ++ END_STR ++ ['q'])) = .ok ['p', 'v', 'q'] := by
  have h2 := interpolate_spec.2.1 [(['k'], ['v'])] ['p'] ['k'] ['q'] ['v']
    (by decide) (by decide) (by decide)
  have h1 := interpolate_spec.1 [(['k'], ['v'])] ['q'] (by decide)
  rw [h2, h1]
  rfl



/-! ## Target map rendering and parsing (`src/target.rs`)

`TargetMap` wraps a `BTreeMap<String, String>`.  `Display` renders
`k=v ` for each entry in key order; `FromStr` splits on whitespace and
requires every token to contain `=`.  Strings are `List Char`; the
`BTreeMap` is a key-sorted association list, rebuilt by `btreeInsert`
during parsing (later inserts replace equal keys, as collecting an
iterator into a `BTreeMap` does). -/

/-- Rust `char::is_whitespace` (the Unicode White_Space property), used by
`str::split_whitespace`. -/
def isRustWhitespace (c : Char) : Bool :=
  c == ' ' || c == '\t' || c == '\n' || c == '\x0b' || c == '\x0c' || c == '\r' ||
  c == '\x85' || c == '\xa0' || c.val == 0x1680 ||
  (0x2000 ≤ c.val && c.val ≤ 0x200a) || c.val == 0x2028 || c.val == 0x2029 ||
  c.val == 0x202f || c.val == 0x205f || c.val == 0x3000

/-- `str::split_whitespace`: split into maximal runs of non-whitespace
characters, dropping empty tokens.  `cur` is the (reversed) token being
accumulated. -/
def splitWsGo (cur : List Char) : List Char → List (List Char)
  | [] => if cur.isEmpty then [] else [cur.reverse]
  | c :: rest =>
    if isRustWhitespace c then
      if cur.isEmpty then splitWsGo [] rest
      else cur.reverse :: splitWsGo [] rest
    else splitWsGo (c :: cur) rest

/-- `str::split_whitespace` on a whole string. -/
def splitWs (s : List Char) : List (List Char) :=
  splitWsGo [] s

/-- `str::split_once('=')`: split at the first `=`, or `none`. -/
def splitOnceEq : List Char → Option (List Char × List Char)
  | [] => none
  | c :: rest =>
    if c = '=' then some ([], rest)
    else (splitOnceEq rest).map (fun p => (c :: p.1, p.2))

/-- `TargetParseError` from `src/target.rs`. -/
inductive TargetParseError where
  | MissingEquals (token : List Char)
deriving DecidableEq, Repr

/-- The `Ord` instance of Rust `String` (lexicographic byte order; UTF-8
byte order coincides with code-point order). -/
def keyLt : List Char → List Char → Bool
  | [], [] => false
  | [], _ :: _ => true
  | _ :: _, [] => false
  | a :: as, b :: bs =>
    if a.toNat < b.toNat then true
    else if b.toNat < a.toNat then false
    else keyLt as bs

/-- `BTreeMap::insert` on the sorted association list (replaces an equal
key). -/
def btreeInsert (k v : List Char) :
    List (List Char × List Char) → List (List Char × List Char)
  | [] => [(k, v)]
  | (k0, v0) :: rest =>
    if keyLt k k0 then (k, v) :: (k0, v0) :: rest
    else if k = k0 then (k, v) :: rest
    else (k0, v0) :: btreeInsert k v rest

/-- The `collect::<Result<BTreeMap, _>>` step of
`TargetMap::from_str` (`src/target.rs` lines 66-76): process tokens left to
right, stopping at the first token without a `=`. -/
def TargetMap.collectTokens (m : List (List Char × List Char)) :
    List (List Char) → Except TargetParseError (List (List Char × List Char))
  | [] => .ok m
  | kv :: rest =>
    match splitOnceEq kv with
    | none => .error (.MissingEquals kv)
    | some p => TargetMap.collectTokens (btreeInsert p.1 p.2 m) rest

/-- `TargetMap::from_str` from `src/target.rs` lines 66-76. -/
def TargetMap.from_str (s : List Char) :
    Except TargetParseError (List (List Char × List Char)) :=
  TargetMap.collectTokens [] (splitWs s)

/-- The `Display` impl for `TargetMap` from `src/target.rs` lines 48-55:
`write!(f, "k=v ")` for every entry in iteration order (note the trailing
space after every pair). -/
def TargetMap.fmt (t : List (List Char × List Char)) : List Char :=
  t.foldl (fun acc kv => acc ++ (kv.1 ++ '=' :: kv.2 ++ [' '])) []

theorem keyLt_irrefl : ∀ a : List Char, keyLt a a = false := by
  intro a
  induction a with
  | nil => rfl
  | cons c rest ih => simp [keyLt, ih]

theorem keyLt_asymm : ∀ a b : List Char, keyLt a b = true → keyLt b a = false := by
  intro a
  induction a with
  | nil =>
    intro b h
    cases b with
    | nil => simp [keyLt] at h
    | cons c bs => rfl
  | cons c rest ih =>
    intro b h
    cases b with
    | nil => simp [keyLt] at h
    | cons d bs =>
      simp only [keyLt] at h ⊢
      by_cases hcd : c.toNat < d.toNat
      · have hdc : ¬ d.toNat < c.toNat := by omega
        simp [hcd, hdc]
      · by_cases hdc : d.toNat < c.toNat
        · simp [hcd, hdc] at h
        · simp only [hcd, hdc, if_false] at h ⊢
          exact ih bs h

theorem keyLt_trans : ∀ a b c : List Char,
    keyLt a b = true → keyLt b c = true → keyLt a c = true := by
  intro a
  induction a with
  | nil =>
    intro b c hab hbc
    cases b with
    | nil => simp [keyLt] at hab
    | cons d bs =>
      cases c with
      | nil => simp [keyLt] at hbc
      | cons e cs => rfl
  | cons x as ih =>
    intro b c hab hbc
    cases b with
    | nil => simp [keyLt] at hab
    | cons d bs =>
      cases c with
      | nil => simp [keyLt] at hbc
      | cons e cs =>
        simp only [keyLt] at hab hbc ⊢
        by_cases hxd : x.toNat < d.toNat
        · by_cases hde : d.toNat < e.toNat
          · simp [show x.toNat < e.toNat by omega]
          · by_cases hed : e.toNat < d.toNat
            · simp [hde, hed] at hbc
            · have : d.toNat = e.toNat := by omega
              simp [show x.toNat < e.toNat by omega]
        · by_cases hdx : d.toNat < x.toNat
          · simp [hxd, hdx] at hab
          · by_cases hde : d.toNat < e.toNat
            · simp [show x.toNat < e.toNat by omega]
            · by_cases hed : e.toNat < d.toNat
              · simp [hde, hed] at hbc
              · have hxe : ¬ x.toNat < e.toNat := by omega
                have hex : ¬ e.toNat < x.toNat := by omega
                simp only [hxd, hdx, if_false] at hab
                simp only [hde, hed, if_false] at hbc
                simp only [hxe, hex, if_false]
                exact ih bs cs hab hbc

theorem keyLt_ne {a b : List Char} (h : keyLt a b = true) : a ≠ b := by
  intro heq
  subst heq
  rw [keyLt_irrefl] at h
  cases h

theorem btreeInsert_append {k v : List Char} :
    ∀ m : List (List Char × List Char),
      (∀ kv ∈ m, keyLt kv.1 k = true) → btreeInsert k v m = m ++ [(k, v)] := by
  intro m
  induction m with
  | nil => intro _; rfl
  | cons kv0 rest ih =>
    intro h
    obtain ⟨k0, v0⟩ := kv0
    have h0 : keyLt k0 k = true := h (k0, v0) (List.mem_cons_self _ _)
    have hlt : keyLt k k0 = false := keyLt_asymm _ _ h0
    have hne : k ≠ k0 := fun he => keyLt_ne h0 he.symm
    simp only [btreeInsert, hlt, Bool.false_eq_true, if_false, hne, List.cons_append]
    rw [ih (fun kv hkv => h kv (List.mem_cons_of_mem _ hkv))]

theorem splitOnceEq_eq_none_iff : ∀ tok : List Char,
    splitOnceEq tok = none ↔ '=' ∉ tok := by
  intro tok
  induction tok with
  | nil => simp [splitOnceEq]
  | cons c rest ih =>
    simp only [splitOnceEq, List.mem_cons]
    by_cases hc : c = '='
    · subst hc
      simp
    · rw [if_neg hc, Option.map_eq_none', ih]
      constructor
      · intro h hor
        rcases hor with he | hm
        · exact hc he.symm
        · exact h hm
      · intro h hm
        exact h (Or.inr hm)

theorem splitOnceEq_append {k : List Char} (hk : '=' ∉ k) :
    ∀ v : List Char, splitOnceEq (k ++ '=' :: v) = some (k, v) := by
  induction k with
  | nil => intro v; simp [splitOnceEq]
  | cons c rest ih =>
    intro v
    have hc : ¬ c = '=' := fun he => hk (he ▸ List.mem_cons_self _ _)
    have hrest : '=' ∉ rest := fun hmem => hk (List.mem_cons_of_mem _ hmem)
    simp [splitOnceEq, hc, ih hrest v]

theorem splitWsGo_token {tok : List Char} (htok : ∀ c ∈ tok, isRustWhitespace c = false) :
    ∀ (acc s' : List Char), splitWsGo acc (tok ++ s') = splitWsGo (tok.reverse ++ acc) s' := by
  induction tok with
  | nil => intro acc s'; simp
  | cons c rest ih =>
    intro acc s'
    have hc : isRustWhitespace c = false := htok c (List.mem_cons_self _ _)
    have hrest : ∀ x ∈ rest, isRustWhitespace x = false :=
      fun x hx => htok x (List.mem_cons_of_mem _ hx)
    simp only [List.cons_append, splitWsGo, hc, Bool.false_eq_true, if_false, List.append_eq]
    rw [ih hrest (c :: acc) s']
    simp [List.append_assoc]

theorem splitWsGo_space (acc s' : List Char) (hacc : acc ≠ []) :
    splitWsGo acc (' ' :: s') = acc.reverse :: splitWsGo [] s' := by
  have h : isRustWhitespace ' ' = true := by decide
  simp [splitWsGo, h, List.isEmpty_iff, hacc]

theorem foldl_append_shift {α : Type} (f : α → List Char) :
    ∀ (l : List α) (a : List Char),
      l.foldl (fun acc x => acc ++ f x) a = a ++ l.foldl (fun acc x => acc ++ f x) [] := by
  intro l
  induction l with
  | nil => simp
  | cons x rest ih =>
    intro a
    simp only [List.foldl_cons]
    rw [ih (a ++ f x), ih ([] ++ f x)]
    simp [List.append_assoc]

theorem fmt_cons (kv : List Char × List Char) (t : List (List Char × List Char)) :
    TargetMap.fmt (kv :: t) = (kv.1 ++ '=' :: kv.2 ++ [' ']) ++ TargetMap.fmt t := by
  unfold TargetMap.fmt
  simp only [List.foldl_cons]
  rw [foldl_append_shift (fun kv : List Char × List Char => kv.1 ++ '=' :: kv.2 ++ [' ']) t
    ([] ++ (kv.1 ++ '=' :: kv.2 ++ [' ']))]
  simp

theorem splitWs_fmt : ∀ t : List (List Char × List Char),
    (∀ kv ∈ t, ∀ ch ∈ kv.1, isRustWhitespace ch = false) →
    (∀ kv ∈ t, ∀ ch ∈ kv.2, isRustWhitespace ch = false) →
    splitWs (TargetMap.fmt t) = t.map (fun kv => kv.1 ++ '=' :: kv.2) := by
  intro t
  induction t with
  | nil => intro _ _; rfl
  | cons kv rest ih =>
    intro hk hv
    obtain ⟨k, v⟩ := kv
    have htokfree : ∀ c ∈ (k ++ '=' :: v), isRustWhitespace c = false := by
      intro c hc
      rw [List.mem_append, List.mem_cons] at hc
      rcases hc with hc | hc | hc
      · exact hk (k, v) (List.mem_cons_self _ _) c hc
      · subst hc; decide
      · exact hv (k, v) (List.mem_cons_self _ _) c hc
    unfold splitWs
    rw [fmt_cons]
    have hregroup : (((k, v).1 ++ '=' :: (k, v).2 ++ [' ']) : List Char) ++ TargetMap.fmt rest
        = (k ++ '=' :: v) ++ (' ' :: TargetMap.fmt rest) := by
      simp [List.append_assoc]
    rw [hregroup, splitWsGo_token htokfree [] (' ' :: TargetMap.fmt rest)]
    rw [List.append_nil]
    rw [splitWsGo_space _ _ (by simp)]
    rw [List.reverse_reverse]
    have hih := ih (fun kv hkv => hk kv (List.mem_cons_of_mem _ hkv))
      (fun kv hkv => hv kv (List.mem_cons_of_mem _ hkv))
    unfold splitWs at hih
    rw [hih]
    rfl

theorem collectTokens_sorted :
    ∀ (ps : List (List Char × List Char)) (m : List (List Char × List Char)),
      (∀ kv ∈ ps, '=' ∉ kv.1) →
      (∀ kv ∈ m, ∀ p ∈ ps, keyLt kv.1 p.1 = true) →
      List.Pairwise (fun kv p => keyLt kv.1 p.1 = true) ps →
      TargetMap.collectTokens m (ps.map (fun kv => kv.1 ++ '=' :: kv.2)) = .ok (m ++ ps) := by
  intro ps
  induction ps with
  | nil => intro m _ _ _; simp [TargetMap.collectTokens]
  | cons p rest ih =>
    intro m hkeys hless hpair
    obtain ⟨k, v⟩ := p
    have hk : '=' ∉ k := hkeys (k, v) (List.mem_cons_self _ _)
    simp only [List.map_cons, TargetMap.collectTokens, splitOnceEq_append hk]
    rw [btreeInsert_append m (fun kv hkv => hless kv hkv (k, v) (List.mem_cons_self _ _))]
    rw [ih (m ++ [(k, v)])
      (fun kv hkv => hkeys kv (List.mem_cons_of_mem _ hkv))
      (by
        intro kv hkv p2 hp2
        rw [List.mem_append] at hkv
        rcases hkv with hkv | hkv
        · exact hless kv hkv p2 (List.mem_cons_of_mem _ hp2)
        · rw [List.mem_singleton] at hkv
          subst hkv
          exact (List.pairwise_cons.mp hpair).1 p2 hp2)
      (List.pairwise_cons.mp hpair).2]
    simp

theorem collectTokens_ok_iff :
    ∀ (toks : List (List Char)) (m : List (List Char × List Char)),
      (∃ r, TargetMap.collectTokens m toks = .ok r) ↔ ∀ tok ∈ toks, '=' ∈ tok := by
  intro toks
  induction toks with
  | nil => intro m; simp [TargetMap.collectTokens]
  | cons tok rest ih =>
    intro m
    simp only [TargetMap.collectTokens, List.mem_cons]
    cases hso : splitOnceEq tok with
    | none =>
      have hno : '=' ∉ tok := (splitOnceEq_eq_none_iff tok).mp hso
      constructor
      · rintro ⟨r, hr⟩
        cases hr
      · intro h
        exact absurd (h tok (Or.inl rfl)) hno
    | some p =>
      have htok : '=' ∈ tok := by
        by_contra hno
        rw [(splitOnceEq_eq_none_iff tok).mpr hno] at hso
        cases hso
      rw [ih (btreeInsert p.1 p.2 m)]
      constructor
      · intro h t ht
        rcases ht with rfl | ht
        · exact htok
        · exact h t ht
      · intro h t ht
        exact h t (Or.inr ht)

theorem collectTokens_first_error :
    ∀ (ts1 : List (List Char)) (tok : List Char) (ts2 : List (List Char))
      (m : List (List Char × List Char)),
      (∀ t ∈ ts1, '=' ∈ t) → '=' ∉ tok →
      TargetMap.collectTokens m (ts1 ++ tok :: ts2) = .error (.MissingEquals tok) := by
  intro ts1
  induction ts1 with
  | nil =>
    intro tok ts2 m _ htok
    simp [TargetMap.collectTokens, (splitOnceEq_eq_none_iff tok).mpr htok]
  | cons t1 rest ih =>
    intro tok ts2 m hts htok
    have ht1 : '=' ∈ t1 := hts t1 (List.mem_cons_self _ _)
    cases hso : splitOnceEq t1 with
    | none => exact absurd ht1 ((splitOnceEq_eq_none_iff t1).mp hso)
    | some p =>
      simp only [List.cons_append, TargetMap.collectTokens, hso]
      exact ih tok ts2 _ (fun t ht => hts t (List.mem_cons_of_mem _ ht)) htok

/-- Counterexample for C9: for the map with the single entry
`"a=b" ↦ "c"` (a key containing `=`), rendering and reparsing yields the
different map `"a" ↦ "b=c"`, so Display followed by FromStr is not the
identity on every map. -/
theorem targetmap_roundtrip_counterexample :
    TargetMap.from_str (TargetMap.fmt [(['a', '=', 'b'], ['c'])])
      = .ok [(['a'], ['b', '=', 'c'])]
    ∧ TargetMap.from_str (TargetMap.fmt [(['a', '=', 'b'], ['c'])])
      ≠ .ok [(['a', '=', 'b'], ['c'])] := by
  refine ⟨rfl, ?_⟩
  intro h
  rw [show TargetMap.from_str (TargetMap.fmt [(['a', '=', 'b'], ['c'])])
      = .ok [(['a'], ['b', '=', 'c'])] from rfl] at h
  have := Except.ok.inj h
  exact absurd this (by decide)

/-- C9 (amended): for a target map whose keys contain no whitespace and no
`=` and whose values contain no whitespace (every map `FromStr` itself can
produce has this shape), Display followed by FromStr is the identity;
parsing any string succeeds iff every whitespace-separated token contains
`=`; and a parse failure is `MissingEquals` naming the first offending
token. -/
theorem targetmap_display_fromstr_spec :
    (∀ t : List (List Char × List Char),
        List.Chain' (fun kv p => keyLt kv.1 p.1 = true) t →
        (∀ kv ∈ t, ∀ ch ∈ kv.1, isRustWhitespace ch = false ∧ ch ≠ '=') →
        (∀ kv ∈ t, ∀ ch ∈ kv.2, isRustWhitespace ch = false) →
        TargetMap.from_str (TargetMap.fmt t) = .ok t)
    ∧ (∀ s : List Char,
        (∃ m, TargetMap.from_str s = .ok m) ↔ ∀ tok ∈ splitWs s, '=' ∈ tok)
    ∧ (∀ (s : List Char) (ts1 : List (List Char)) (tok : List Char) (ts2 : List (List Char)),
        splitWs s = ts1 ++ tok :: ts2 → (∀ t ∈ ts1, '=' ∈ t) → '=' ∉ tok →
        TargetMap.from_str s = .error (.MissingEquals tok)) := by
  refine ⟨?_, ?_, ?_⟩
  · intro t hchain hkeys hvals
    unfold TargetMap.from_str
    rw [splitWs_fmt t (fun kv hkv ch hch => (hkeys kv hkv ch hch).1) hvals]
    haveI : IsTrans (List Char × List Char) (fun kv p => keyLt kv.1 p.1 = true) :=
      ⟨fun a b c hab hbc => keyLt_trans a.1 b.1 c.1 hab hbc⟩
    have hpair : List.Pairwise (fun kv p => keyLt kv.1 p.1 = true) t :=
      List.chain'_iff_pairwise.mp hchain
    have hrun := collectTokens_sorted t []
      (fun kv hkv he => ((hkeys kv hkv '=' he).2 rfl))
      (fun kv hkv => absurd hkv (List.not_mem_nil kv))
      hpair
    simpa using hrun
  · intro s
    exact collectTokens_ok_iff (splitWs s) []
  · intro s ts1 tok ts2 hsplit hts htok
    unfold TargetMap.from_str
    rw [hsplit]
    exact collectTokens_first_error ts1 tok ts2 [] hts htok

/-- Witness for C9 (amended): the singleton map `k ↦ v` round-trips, and
parsing "x" fails with `MissingEquals "x"`. -/
theorem targetmap_display_fromstr_spec_witness :
    TargetMap.from_str (TargetMap.fmt [(['k'], ['v'])]) = .ok [(['k'], ['v'])]
    ∧ TargetMap.from_str ['x'] = .error (.MissingEquals ['x']) := by
  constructor
  · exact targetmap_display_fromstr_spec.1 [(['k'], ['v'])]
      (List.chain'_singleton _) (by decide) (by decide)
  · exact targetmap_display_fromstr_spec.2.2 ['x'] [] ['x'] [] (by decide)
      (fun t ht => absurd ht (List.not_mem_nil t)) (by decide)


/-! ## Build cache (`src/cache.rs`)

The filesystem appears as explicit oracles: `disk` gives, for a path, the
outcome of reading a manifest file there; `getDigest` gives the digest of a
host file (`none` = unreadable); `output_exists` is the result of
`tokio::fs::try_exists` on the output path.  Because which files get hashed
is the property the cache's early-exit path is about, `new_internal` and
`lookup` return the ordered list of host paths that were hashed alongside
their result. -/

/-- `InputEntry` from `src/cache.rs` lines 40-44. -/
structure InputEntry where
  key : BuildInput
  value : Option Digest
deriving DecidableEq, Repr

/-- `ArtifactManifest` from `src/cache.rs` lines 46-56 (the `phantom`
digest-algorithm marker carries no data). -/
structure ArtifactManifest where
  inputs : List InputEntry
  output_path : String
deriving DecidableEq, Repr

/-- `CacheError` from `src/cache.rs` lines 164-179. -/
inductive CacheError where
  | CacheMiss (reason : String)
  | Other (msg : String)
deriving DecidableEq, Repr

/-- `Cache` from `src/cache.rs` lines 193-196. -/
structure Cache where
  disabled : Bool
  cache_directory : String
deriving DecidableEq, Repr

/-- Splitting a character list at a separator character, keeping empty
pieces (`str::split`). -/
def splitOnChar (sep : Char) : List Char → List (List Char)
  | [] => [[]]
  | c :: rest =>
    if c = sep then [] :: splitOnChar sep rest
    else
      match splitOnChar sep rest with
      | [] => [[c]]
      | t :: ts => (c :: t) :: ts

/-- `Utf8Path::file_name`: the last non-empty `/`-separated component,
`none` for an empty path or one ending in `..`. -/
def fileName (path : String) : Option String :=
  let comps := (splitOnChar '/' path.toList).filter (fun c => c ≠ [])
  match comps.getLast? with
  | none => none
  | some last => if last = ['.', '.'] then none else some (String.mk last)

/-- `Utf8Path::extension`: the part of the file name after the last `.`;
`none` when there is no `.`, or when the only `.` is the leading one of a
dotfile. -/
def extension (path : String) : Option String :=
  match fileName path with
  | none => none
  | some name =>
    match splitOnChar '.' name.toList with
    | [] => none
    | [_] => none
    | p :: rest =>
      if p = [] ∧ rest.length = 1 then none
      else (rest.getLast?).map String.mk

/-- `Utf8Path::join`: appends a relative path after a `/`; an absolute
right-hand side replaces the left-hand side. -/
def joinPath (a b : String) : String :=
  match b.toList with
  | '/' :: _ => b
  | _ => a ++ "/" ++ b

/-- The observable outcomes of opening, reading and JSON-parsing the file
at a manifest path (`ArtifactManifest::read_from`, `src/cache.rs` lines
129-161). -/
inductive ReadResult where
  | NotFound
  | IoError (msg : String)
  | Unparseable
  | Parsed (manifest : ArtifactManifest)
deriving DecidableEq, Repr

/-- `ArtifactManifest::read_from` from `src/cache.rs` lines 129-161: a
missing file and an unparseable manifest are demoted to cache misses; other
I/O failures are `Other` errors. -/
def ArtifactManifest.read_from (disk : String → ReadResult) (path : String) :
    Except CacheError ArtifactManifest :=
  match extension path with
  | none => .error (.Other "Missing extension?")
  | some ext =>
    if ext ≠ "json" then
      .error (.Other "JSON encoding is all we know. Read from a '.json' file?")
    else
      match disk path with
      | .NotFound => .error (.CacheMiss ("File " ++ path ++ " not found"))
      | .IoError msg => .error (.Other msg)
      | .Unparseable => .error (.CacheMiss ("Cannot parse manifest at " ++ path))
      | .Parsed manifest => .ok manifest

/-- The per-input closure of `ArtifactManifest::new_internal`
(`src/cache.rs` lines 75-99): hash the input when it has a host path and
build its entry. -/
def newInternalEntry (getDigest : String → Option Digest) (input : BuildInput) :
    Except CacheError InputEntry :=
  match input.input_path with
  | some input_path =>
    match getDigest input_path with
    | some d => .ok { key := input, value := some d }
    | none => .error (.Other ("get_digest failed for " ++ input_path))
  | none => .ok { key := input, value := none }

/-- The iteration of `ArtifactManifest::new_internal` over its inputs
(`src/cache.rs` lines 75-101), with the hashing effect recorded: the second
component lists every host path passed to `get_digest`, in order.

`expected` carries the entries of the `compare_with` manifest.  The source
compares each computed entry with the expected one and, on inequality,
evaluates `CacheError::miss("Differing build inputs...")` — but that
expression's value is immediately discarded (the statement lacks
`return Err(...)`, see `src/cache.rs` lines 88-95), so the comparison can
not affect the result.  `_unused_miss` mirrors that discarded value; note
the recursion continues unconditionally, so every input is hashed even
after a divergence.  (The source indexes `compare_with.inputs.0[i]`; the
model reads the head of the remaining expected entries, which is the same
thing whenever the caller supplies equally many expected entries, as
`lookup` does.) -/
def newInternalGo (getDigest : String → Option Digest)
    (expected : Option (List InputEntry)) :
    List BuildInput → Except CacheError (List InputEntry) × List String
  | [] => (.ok [], [])
  | input :: rest =>
    match newInternalEntry getDigest input with
    | .error e =>
      (.error e, match input.input_path with | some p => [p] | none => [])
    | .ok entry =>
      let _unused_miss : Option CacheError :=
        (expected.bind List.head?).bind (fun expected_input =>
          if expected_input ≠ entry then some (.CacheMiss "Differing build inputs.")
          else none)
      match newInternalGo getDigest (expected.map (List.drop 1)) rest with
      | (res, hashed) =>
        let log := match input.input_path with | some p => p :: hashed | none => hashed
        match res with
        | .error e => (.error e, log)
        | .ok entries => (.ok (entry :: entries), log)

/-- `ArtifactManifest::new_internal` from `src/cache.rs` lines 70-108,
returning the manifest together with the list of hashed host paths. -/
def new_internal (getDigest : String → Option Digest) (inputs : List BuildInput)
    (output_path : String) (compare_with : Option ArtifactManifest) :
    Except CacheError ArtifactManifest × List String :=
  match newInternalGo getDigest (compare_with.map (fun m => m.inputs)) inputs with
  | (.error e, hashed) => (.error e, hashed)
  | (.ok entries, hashed) =>
    (.ok { inputs := entries, output_path := output_path }, hashed)

/-- `ArtifactManifest::new` from `src/cache.rs` lines 60-63 (used by
`Cache::update`): `new_internal` without a comparison manifest. -/
def ArtifactManifest.new (getDigest : String → Option Digest)
    (inputs : List BuildInput) (output_path : String) :
    Except CacheError ArtifactManifest × List String :=
  new_internal getDigest inputs output_path none

/-- `Cache::lookup` from `src/cache.rs` lines 218-293, with the hashing
effect recorded (second component; empty when the lookup misses before any
digest is computed). -/
def Cache.lookup (cache : Cache) (disk : String → ReadResult)
    (output_exists : Except String Bool) (getDigest : String → Option Digest)
    (inputs : List BuildInput) (output_path : String) :
    Except CacheError ArtifactManifest × List String :=
  if cache.disabled then (.error (.CacheMiss "Cache disabled"), [])
  else
    match fileName output_path with
    | none => (.error (.Other "Output has no file name"), [])
    | some artifact_filename =>
      let manifest_filename := artifact_filename ++ ".json"
      let manifest_path := joinPath cache.cache_directory manifest_filename
      match ArtifactManifest.read_from disk manifest_path with
      | .error e => (.error e, [])
      | .ok manifest =>
        if inputs ≠ manifest.inputs.map (fun entry => entry.key) then
          (.error (.CacheMiss "Set of inputs has changed"), [])
        else if output_path ≠ manifest.output_path then
          (.error (.CacheMiss ("Output path changed from " ++ manifest.output_path
            ++ " -> " ++ output_path)), [])
        else
          match output_exists with
          | .error e => (.error (.CacheMiss ("Cannot locate output artifact: " ++ e)), [])
          | .ok false => (.error (.CacheMiss "Output does not exist"), [])
          | .ok true =>
            match fileName manifest.output_path with
            | none => (.error (.CacheMiss ("Missing output file name from manifest "
                ++ manifest.output_path)), [])
            | some observed_filename =>
              if observed_filename ≠ artifact_filename then
                (.error (.CacheMiss ("Wrong output name in manifest (saw "
                  ++ observed_filename ++ ", expected " ++ artifact_filename ++ ")")), [])
              else
                match new_internal getDigest inputs output_path (some manifest) with
                | (.error e, hashed) => (.error e, hashed)
                | (.ok calculated_manifest, hashed) =>
                  if calculated_manifest ≠ manifest then
                    (.error (.CacheMiss "Manifests appear different"), hashed)
                  else (.ok manifest, hashed)

/-- The C1 scenario: two file inputs; the stored manifest has the same keys
and output path, but the first input's digest on disk has changed. -/
def c1InputA : BuildInput := .AddFile { from_ := "/in/a", to_ := "/pkg/a" } 3
def c1InputB : BuildInput := .AddFile { from_ := "/in/b", to_ := "/pkg/b" } 4

def c1Inputs : List BuildInput := [c1InputA, c1InputB]

def c1StoredManifest : ArtifactManifest :=
  { inputs := [ { key := c1InputA, value := some (.Blake3 "old-digest-of-a") },
                { key := c1InputB, value := some (.Blake3 "digest-of-b") } ],
    output_path := "/out/pkg.tar.gz" }

/-- Digest oracle after the first source file was edited. -/
def c1Digest : String → Option Digest := fun p =>
  if p = "/in/a" then some (.Blake3 "new-digest-of-a")
  else if p = "/in/b" then some (.Blake3 "digest-of-b")
  else none

def c1Disk : String → ReadResult := fun p =>
  if p = "/out/manifest-cache/pkg.tar.gz.json" then .Parsed c1StoredManifest
  else .NotFound

/-- C1 evaluated at the failing input: the stored manifest exists, parses,
has the same key sequence and output path, and the output exists, and only
the first input's digest differs — yet `lookup` returns the miss
"Manifests appear different" (not a reason beginning "Differing build
inputs"), and BOTH inputs are hashed, including `/in/b` which comes after
the divergent entry.  The early exit described by the claim (and by the
comments at `src/cache.rs` lines 66-69 and 280) does not happen because the
`CacheError::miss("Differing build inputs...")` constructed at lines 90-93
is discarded instead of returned. -/
theorem cache_lookup_differing_inputs_code_evaluation :
    Cache.lookup { disabled := false, cache_directory := "/out/manifest-cache" } c1Disk
        (.ok true) c1Digest c1Inputs "/out/pkg.tar.gz"
      = (.error (.CacheMiss "Manifests appear different"), ["/in/a", "/in/b"]) := by
  rfl

theorem newInternalEntry_isSome {getDigest : String → Option Digest}
    {input : BuildInput} {entry : InputEntry}
    (h : newInternalEntry getDigest input = .ok entry) :
    entry.key = input ∧ entry.value.isSome = input.input_path.isSome := by
  unfold newInternalEntry at h
  cases hp : input.input_path with
  | none =>
    rw [hp] at h
    cases h
    exact ⟨rfl, rfl⟩
  | some p =>
    rw [hp] at h
    dsimp only at h
    cases hd : getDigest p with
    | none => rw [hd] at h; cases h
    | some d =>
      rw [hd] at h
      cases h
      exact ⟨rfl, rfl⟩

theorem newInternalGo_entries_digest (getDigest : String → Option Digest) :
    ∀ (inputs : List BuildInput) (expected : Option (List InputEntry))
      (entries : List InputEntry) (hashed : List String),
      newInternalGo getDigest expected inputs = (.ok entries, hashed) →
      ∀ entry ∈ entries, entry.value.isSome = entry.key.input_path.isSome := by
  intro inputs
  induction inputs with
  | nil =>
    intro expected entries hashed h entry hentry
    unfold newInternalGo at h
    cases h
    cases hentry
  | cons input rest ih =>
    intro expected entries hashed h entry hentry
    unfold newInternalGo at h
    cases he : newInternalEntry getDigest input with
    | error e => rw [he] at h; cases h
    | ok entry0 =>
      rw [he] at h
      cases hgo : newInternalGo getDigest (expected.map (List.drop 1)) rest with
      | mk res hashed2 =>
        rw [hgo] at h
        cases res with
        | error e => simp at h
        | ok entries2 =>
          simp only [Prod.mk.injEq] at h
          obtain ⟨hent, -⟩ := h
          have hent' := hent
          cases hent'
          rcases List.mem_cons.mp hentry with rfl | hmem
          · obtain ⟨hk, hv⟩ := newInternalEntry_isSome he
            rw [hk, hv]
          · exact ih (expected.map (List.drop 1)) entries2 hashed2 hgo entry hmem

/-- C10: in every `ArtifactManifest` constructed by `new_internal` (the
constructor used by both `Cache::update` and the `Cache::lookup`
comparison), an entry's digest value is `some` exactly when the input has a
host path (`AddFile`, `AddBlob`, `AddPackage`); for `AddInMemoryFile` and
`AddDirectory` inputs the digest value is always `none`. -/
theorem new_internal_digest_iff_host_path
    (getDigest : String → Option Digest) (inputs : List BuildInput)
    (output_path : String) (compare_with : Option ArtifactManifest)
    (man : ArtifactManifest) (hashed : List String)
    (h : new_internal getDigest inputs output_path compare_with = (.ok man, hashed)) :
    ∀ entry ∈ man.inputs,
      (entry.value.isSome ↔ entry.key.input_path.isSome)
      ∧ (∀ dst contents, entry.key = .AddInMemoryFile dst contents → entry.value = none)
      ∧ (∀ d, entry.key = .AddDirectory d → entry.value = none) := by
  intro entry hentry
  unfold new_internal at h
  cases hgo : newInternalGo getDigest (compare_with.map (fun m => m.inputs)) inputs with
  | mk res hashed2 =>
    rw [hgo] at h
    cases res with
    | error e => simp at h
    | ok entries =>
      simp only [Prod.mk.injEq, Except.ok.injEq] at h
      obtain ⟨hman, -⟩ := h
      subst hman
      have hsome := newInternalGo_entries_digest getDigest inputs
        (compare_with.map (fun m => m.inputs)) entries hashed2 hgo entry hentry
      refine ⟨by rw [hsome], ?_, ?_⟩
      · intro dst contents hkey
        have : entry.key.input_path = none := by rw [hkey]; rfl
        rw [this] at hsome
        simpa using hsome
      · intro d hkey
        have : entry.key.input_path = none := by rw [hkey]; rfl
        rw [this] at hsome
        simpa using hsome

/-- Witness for C10: a manifest built from an in-memory file, a directory
and a real file has digests exactly on the file entry. -/
theorem new_internal_digest_iff_host_path_witness :
    (new_internal (fun p => if p = "/in/w" then some (.Blake3 "w-digest") else none)
        [.AddInMemoryFile "oxide.json" "j", .AddDirectory "root",
         .AddFile { from_ := "/in/w", to_ := "/w" } 1] "/out/w.tar" none).1
      = .ok { inputs := [ { key := .AddInMemoryFile "oxide.json" "j", value := none },
                          { key := .AddDirectory "root", value := none },
                          { key := .AddFile { from_ := "/in/w", to_ := "/w" } 1,
                            value := some (.Blake3 "w-digest") } ],
              output_path := "/out/w.tar" }
    ∧ ({ key := .AddInMemoryFile "oxide.json" "j", value := none } : InputEntry).value.isSome
        = false := by
  constructor
  · rfl
  · have := new_internal_digest_iff_host_path
      (fun p => if p = "/in/w" then some (.Blake3 "w-digest") else none)
      [.AddInMemoryFile "oxide.json" "j", .AddDirectory "root",
       .AddFile { from_ := "/in/w", to_ := "/w" } 1] "/out/w.tar" none
      { inputs := [ { key := .AddInMemoryFile "oxide.json" "j", value := none },
                    { key := .AddDirectory "root", value := none },
                    { key := .AddFile { from_ := "/in/w", to_ := "/w" } 1,
                      value := some (.Blake3 "w-digest") } ],
        output_path := "/out/w.tar" }
      ["/in/w"] rfl
      { key := .AddInMemoryFile "oxide.json" "j", value := none } (by decide)
    have h2 := this.2.1 "oxide.json" "j" rfl
    simp [h2]



/-! ## Zone archive assembly (`src/archive.rs`) -/

/-- The observable effect of `add_package_to_zone_archive` on one component
entry: where it was unpacked in the temp dir, and under which name it was
appended to the outer archive. -/
structure AppendedEntry where
  unpack_path : String
  appended_name : String
deriving DecidableEq, Repr

/-- `Path::strip_prefix("root/")`: remove the leading `root` component
(component-wise, so the path `root` itself strips to the empty path). -/
def stripRoot (path : String) : Option String :=
  if ['r', 'o', 'o', 't', '/'].isPrefixOf path.toList then
    some (String.mk (path.toList.drop 5))
  else if path = "root" then some ""
  else none

/-- `add_package_to_zone_archive` from `src/archive.rs` lines 102-141,
modelled on the entry paths of the (already opened and gunzipped) component
archive.  For each entry: entries whose path equals `oxide.json` are
skipped; the path is stripped of the leading `root/` (an entry without
that prefix is an error, from the `?` on `strip_prefix`) and the entry is
unpacked at the stripped path inside the temp dir; then the source re-reads
`entry.path()` — the ORIGINAL path — and appends the unpacked file under
that original, `root/`-prefixed name (`src/archive.rs` lines 131-138). -/
def add_package_to_zone_archive (tmp : String) :
    List String → Except String (List AppendedEntry)
  | [] => .ok []
  | entry_path :: entries =>
    if entry_path = "oxide.json" then add_package_to_zone_archive tmp entries
    else
      match stripRoot entry_path with
      | none => .error "StripPrefixError"
      | some stripped =>
        let entry_unpack_path := joinPath tmp stripped
        (add_package_to_zone_archive tmp entries).map
          (fun rest => { unpack_path := entry_unpack_path,
                         appended_name := entry_path } :: rest)

/-- Counterexample for C2: a component entry `root/opt/a.txt` is appended
under its ORIGINAL name `root/opt/a.txt`, not under its stripped name
`opt/a.txt` (the stripped name is only the unpack location in the temp
dir). -/
theorem add_package_appended_name_counterexample :
    add_package_to_zone_archive "/tmp/t" ["root/opt/a.txt"]
      = .ok [{ unpack_path := "/tmp/t/opt/a.txt", appended_name := "root/opt/a.txt" }]
    ∧ add_package_to_zone_archive "/tmp/t" ["root/opt/a.txt"]
      ≠ .ok [{ unpack_path := "/tmp/t/opt/a.txt", appended_name := "opt/a.txt" }] := by
  refine ⟨rfl, ?_⟩
  intro h
  rw [show add_package_to_zone_archive "/tmp/t" ["root/opt/a.txt"]
      = .ok [{ unpack_path := "/tmp/t/opt/a.txt", appended_name := "root/opt/a.txt" }]
    from rfl] at h
  have := Except.ok.inj h
  exact absurd this (by decide)

/-- C2 (amended): entries whose path equals `oxide.json` are skipped; every
remaining entry has its path stripped of the leading `root/`, is unpacked
into the temporary directory at the stripped path, and is appended to the
outer archive under its original (`root/`-prefixed) name. -/
theorem add_package_to_zone_archive_spec (tmp : String) (entries : List String)
    (h : ∀ e ∈ entries, e ≠ "oxide.json" → (stripRoot e).isSome = true) :
    add_package_to_zone_archive tmp entries
      = .ok ((entries.filter (fun e => !(e == "oxide.json"))).map
          (fun e => { unpack_path := joinPath tmp ((stripRoot e).getD ""),
                      appended_name := e })) := by
  induction entries with
  | nil => rfl
  | cons e rest ih =>
    have hrest := ih (fun x hx => h x (List.mem_cons_of_mem _ hx))
    by_cases he : e = "oxide.json"
    · subst he
      simp only [add_package_to_zone_archive, if_pos rfl, List.filter_cons,
        beq_self_eq_true, Bool.not_true, if_neg]
      rw [hrest]
      simp
    · have hs : (stripRoot e).isSome = true := h e (List.mem_cons_self _ _) he
      cases hso : stripRoot e with
      | none => rw [hso] at hs; cases hs
      | some stripped =>
        simp only [add_package_to_zone_archive, if_neg he, hso]
        rw [hrest]
        simp only [Except.map]
        rw [List.filter_cons_of_pos (by simp [he])]
        simp [hso]

/-- Witness for C2 (amended): `oxide.json` is skipped and `root/x` is
unpacked at `/t/x` but appended as `root/x`. -/
theorem add_package_to_zone_archive_spec_witness :
    add_package_to_zone_archive "/t" ["oxide.json", "root/x"]
      = .ok [{ unpack_path := "/t/x", appended_name := "root/x" }] := by
  have := add_package_to_zone_archive_spec "/t" ["oxide.json", "root/x"] (by decide)
  rw [this]
  rfl

/-! ## Version input and input enumeration (`src/package.rs`) -/

/-- `DEFAULT_VERSION.to_string()`: `semver::Version::new(0, 0, 0)` renders
as `0.0.0`.  Versions are modelled by their rendered strings. -/
def DEFAULT_VERSION : String := "0.0.0"

/-- `Package::get_version_input` from `src/package.rs` lines 400-443: the
zone variant renders the `kvs` list as a JSON object by joining
`"k":"v"` fragments with commas. -/
def Package.get_version_input (pkg : Package) (package_name : String)
    (version : Option String) : BuildInput :=
  match pkg.output with
  | .Zone _ =>
    let version := version.getD DEFAULT_VERSION
    let kvs := [("v", "1"), ("t", "layer"), ("pkg", package_name), ("version", version)]
    let contents := "\x7b" ++ String.intercalate ","
        (kvs.map (fun kv => "\"" ++ kv.1 ++ "\":\"" ++ kv.2 ++ "\"")) ++ "\x7d"
    .AddInMemoryFile "oxide.json" contents
  | .Tarball => .AddInMemoryFile "VERSION" (version.getD DEFAULT_VERSION)

/-- `Package::get_all_inputs` from `src/package.rs` lines 532-571.  The
version input always comes first.  The results of `get_paths_inputs`,
`get_rust_inputs` and `get_blobs_inputs` depend on the build host's
filesystem, so they enter as the arguments `paths_inputs`, `rust_inputs`
and `blobs_inputs` (appended in that order, as the source does). -/
def Package.get_all_inputs (pkg : Package) (package_name : String)
    (output_directory : String) (version : Option String)
    (paths_inputs rust_inputs blobs_inputs : List BuildInput) :
    Except String (List BuildInput) :=
  let version_input := pkg.get_version_input package_name version
  match pkg.source with
  | .Local _ _ _ _ =>
    .ok (version_input :: (paths_inputs ++ rust_inputs ++ blobs_inputs))
  | .Composite packages =>
    .ok (version_input :: packages.map (fun component_package =>
      .AddPackage (joinPath output_directory component_package)))
  | _ => .error "Cannot walk over a zone package with this source"

theorem strData_dB1 : ("\x7b\"v\":\"1\",\"t\":\"layer\",\"pkg\":\"" : String).data = ['\x7b', '\"', 'v', '\"', ':', '\"', '1', '\"', ',', '\"', 't', '\"', ':', '\"', 'l', 'a', 'y', 'e', 'r', '\"', ',', '\"', 'p', 'k', 'g', '\"', ':', '\"'] := rfl
theorem strData_dB2 : ("\",\"version\":\"" : String).data = ['\"', ',', '\"', 'v', 'e', 'r', 's', 'i', 'o', 'n', '\"', ':', '\"'] := rfl
theorem strData_dB3 : ("\"\x7d" : String).data = ['\"', '\x7d'] := rfl
theorem strData_dL1 : ("\x7b" : String).data = ['\x7b'] := rfl
theorem strData_dL2 : ("\"v\":\"1\"" : String).data = ['\"', 'v', '\"', ':', '\"', '1', '\"'] := rfl
theorem strData_dL3 : ("," : String).data = [','] := rfl
theorem strData_dL4 : ("\"t\":\"layer\"" : String).data = ['\"', 't', '\"', ':', '\"', 'l', 'a', 'y', 'e', 'r', '\"'] := rfl
theorem strData_dL5 : ("\"pkg\":\"" : String).data = ['\"', 'p', 'k', 'g', '\"', ':', '\"'] := rfl
theorem strData_dL6 : ("\"" : String).data = ['\"'] := rfl
theorem strData_dL7 : ("\"version\":\"" : String).data = ['\"', 'v', 'e', 'r', 's', 'i', 'o', 'n', '\"', ':', '\"'] := rfl
theorem strData_dL8 : ("\x7d" : String).data = ['\x7d'] := rfl

/-- C3: whenever input enumeration succeeds, its first element is the
version input; for zone output that input is an `AddInMemoryFile` at
`oxide.json` whose contents are exactly the JSON object with keys
v, t, pkg, version in that order and no whitespace, with version `0.0.0`
when none is supplied; for tarball output it is an `AddInMemoryFile` at
`VERSION` containing the version string. -/
theorem get_all_inputs_first_version
    (pkg : Package) (package_name : String) (output_directory : String)
    (version : Option String)
    (paths_inputs rust_inputs blobs_inputs inputs : List BuildInput)
    (h : pkg.get_all_inputs package_name output_directory version
        paths_inputs rust_inputs blobs_inputs = .ok inputs) :
    inputs.head? = some (pkg.get_version_input package_name version)
    ∧ (∀ io, pkg.output = .Zone io →
        pkg.get_version_input package_name version =
          .AddInMemoryFile "oxide.json"
            ("\x7b\"v\":\"1\",\"t\":\"layer\",\"pkg\":\"" ++ package_name ++ "\",\"version\":\"" ++ version.getD "0.0.0" ++ "\"\x7d"))
    ∧ (pkg.output = .Tarball →
        pkg.get_version_input package_name version =
          .AddInMemoryFile "VERSION" (version.getD "0.0.0")) := by
  refine ⟨?_, ?_, ?_⟩
  · unfold Package.get_all_inputs at h
    cases hsrc : pkg.source with
    | Local blobs bblobs rust paths =>
      rw [hsrc] at h
      cases h
      rfl
    | Composite packages =>
      rw [hsrc] at h
      cases h
      rfl
    | Prebuilt repo commit sha256 =>
      rw [hsrc] at h
      cases h
    | Manual =>
      rw [hsrc] at h
      cases h
  · intro io hout
    unfold Package.get_version_input
    rw [hout]
    dsimp only
    congr 1
    apply String.ext
    simp only [List.map_cons, List.map_nil, String.intercalate, String.intercalate.go,
      String.data_append,
      strData_dB1, strData_dB2, strData_dB3, strData_dL1, strData_dL2, strData_dL3,
      strData_dL4, strData_dL5, strData_dL6, strData_dL7, strData_dL8,
      DEFAULT_VERSION, List.cons_append, List.nil_append, List.append_assoc]
  · intro hout
    unfold Package.get_version_input
    rw [hout]
    rfl

/-- Witness for C3: a composite zone package named `pkg` with no version
enumerates `oxide.json` first with the stamped default version. -/
theorem get_all_inputs_first_version_witness :
    ([BuildInput.AddInMemoryFile "oxide.json"
        "\x7b\"v\":\"1\",\"t\":\"layer\",\"pkg\":\"pkg\",\"version\":\"0.0.0\"\x7d",
      BuildInput.AddPackage "/out/dep.tar.gz"] : List BuildInput).head?
      = some (Package.get_version_input
          { service_name := "svc", source := .Composite ["dep.tar.gz"],
            output := .Zone false, only_for_targets := none, setup_hint := none }
          "pkg" none) := by
  have := (get_all_inputs_first_version
    { service_name := "svc", source := .Composite ["dep.tar.gz"],
      output := .Zone false, only_for_targets := none, setup_hint := none }
    "pkg" "/out" none [] [] []
    [Package.get_version_input
        { service_name := "svc", source := .Composite ["dep.tar.gz"],
          output := .Zone false, only_for_targets := none, setup_hint := none }
        "pkg" none,
     BuildInput.AddPackage "/out/dep.tar.gz"] rfl).1
  rw [show Package.get_version_input
      { service_name := "svc", source := .Composite ["dep.tar.gz"],
        output := .Zone false, only_for_targets := none, setup_hint := none }
      "pkg" none
    = BuildInput.AddInMemoryFile "oxide.json"
        "\x7b\"v\":\"1\",\"t\":\"layer\",\"pkg\":\"pkg\",\"version\":\"0.0.0\"\x7d" from rfl]
  rw [show Package.get_version_input
      { service_name := "svc", source := .Composite ["dep.tar.gz"],
        output := .Zone false, only_for_targets := none, setup_hint := none }
      "pkg" none
    = BuildInput.AddInMemoryFile "oxide.json"
        "\x7b\"v\":\"1\",\"t\":\"layer\",\"pkg\":\"pkg\",\"version\":\"0.0.0\"\x7d" from rfl] at this
  exact this



/-! ## Blob downloading (`src/blob.rs`)

Network and filesystem appear as explicit data: the metadata of the file
already at the destination (`none` when it does not exist), the parsed
headers of the HEAD and GET responses, and the SHA-256 of the destination
file.  A header that is absent and a header that fails to parse both make
the source give up with an error; the model folds the two into `none`. -/

/-- Metadata of the file at the destination path: length, modification
time (an abstract timestamp), and SHA-256 digest bytes. -/
structure DestFile where
  len : Nat
  mtime : Int
  sha256 : List Nat
deriving DecidableEq, Repr

/-- An HTTP response with its headers already parsed. -/
structure HttpResponse where
  status_ok : Bool
  content_length : Option Nat
  last_modified : Option Int
deriving DecidableEq, Repr

/-- One hex digit (`hex::decode`). -/
def hexDigit (c : Char) : Option Nat :=
  if '0' ≤ c ∧ c ≤ '9' then some (c.toNat - 48)
  else if 'a' ≤ c ∧ c ≤ 'f' then some (c.toNat - 87)
  else if 'A' ≤ c ∧ c ≤ 'F' then some (c.toNat - 55)
  else none

/-- `hex::decode`: pairs of hex digits to bytes; fails on odd length or a
non-hex character. -/
def hexDecode : List Char → Option (List Nat)
  | [] => some []
  | [_] => none
  | c1 :: c2 :: rest =>
    match hexDigit c1, hexDigit c2, hexDecode rest with
    | some h, some l, some bs => some ((h * 16 + l) :: bs)
    | _, _, _ => none

/-- `Source::download_required` from `src/blob.rs` lines 43-90: `true`
means the blob must be (re)downloaded.  A missing destination short-cuts to
`true` before any HEAD request.  For S3, the on-disk length and mtime are
compared against the HEAD response's Content-Length and Last-Modified; for
Buildomat, the on-disk SHA-256 is compared against the declared one. -/
def Source.download_required (source : Source) (dest : Option DestFile)
    (head : HttpResponse) : Except String Bool :=
  match dest with
  | none => .ok true
  | some metadata =>
    match source with
    | .S3 _ =>
      if ¬ head.status_ok then .error "HEAD failed"
      else
        match head.content_length with
        | none => .error "no content length on HEAD response"
        | some content_length =>
          match head.last_modified with
          | none => .error "no last modified on HEAD response"
          | some last_modified =>
            .ok (metadata.len != content_length || metadata.mtime != last_modified)
    | .Buildomat blob_spec =>
      match hexDecode blob_spec.sha256.toList with
      | none => .error "hex decode failed"
      | some expected_digest => .ok (metadata.sha256 != expected_digest)

/-- The observable outcome of `download` from `src/blob.rs` lines 94-168:
either the on-disk file is reused (no GET request), or the blob is fetched;
a fetch records that `sync_all` ran and the value the file's mtime was set
to (the GET response's Last-Modified, when present). -/
inductive DownloadResult where
  | Reused
  | Fetched (fsynced : Bool) (mtime_set_to : Option Int)
deriving DecidableEq, Repr

/-- `download` from `src/blob.rs` lines 94-168.  The destination must have
a file name; when `download_required` is false the function returns without
issuing a GET; otherwise the GET response is streamed to the destination,
`sync_all` is awaited before returning, and the mtime is set to the GET
response's Last-Modified when that header is present. -/
def download (source : Source) (destination : String) (dest : Option DestFile)
    (head : HttpResponse) (get : HttpResponse) : Except String DownloadResult :=
  match fileName destination with
  | none => .error "missing blob filename"
  | some _blob =>
    match source.download_required dest head with
    | .error e => .error e
    | .ok false => .ok .Reused
    | .ok true =>
      if ¬ get.status_ok then .error "GET failed"
      else .ok (.Fetched true get.last_modified)

/-- C5: with the destination file present, an S3 blob is reused iff its
on-disk length equals the HEAD Content-Length and its mtime equals the HEAD
Last-Modified, and otherwise it is streamed, fsynced, and its mtime set to
the server's Last-Modified; a Buildomat blob is reused iff the on-disk
SHA-256 equals the declared one; a missing destination file always
downloads. -/
theorem download_spec :
    (∀ (source : Source) (destination b : String) (head get : HttpResponse),
        fileName destination = some b → get.status_ok = true →
        download source destination none head get = .ok (.Fetched true get.last_modified))
    ∧ (∀ (p destination b : String) (meta : DestFile) (head get : HttpResponse)
        (cl : Nat) (lm : Int),
        fileName destination = some b → head.status_ok = true →
        head.content_length = some cl → head.last_modified = some lm →
        ((download (.S3 p) destination (some meta) head get = .ok .Reused ↔
            meta.len = cl ∧ meta.mtime = lm)
          ∧ (¬ (meta.len = cl ∧ meta.mtime = lm) → get.status_ok = true →
              download (.S3 p) destination (some meta) head get
                = .ok (.Fetched true get.last_modified))))
    ∧ (∀ (spec : PrebuiltBlob) (destination b : String) (meta : DestFile)
        (head get : HttpResponse) (expected : List Nat),
        fileName destination = some b →
        hexDecode spec.sha256.toList = some expected →
        ((download (.Buildomat spec) destination (some meta) head get = .ok .Reused ↔
            meta.sha256 = expected)
          ∧ (meta.sha256 ≠ expected → get.status_ok = true →
              download (.Buildomat spec) destination (some meta) head get
                = .ok (.Fetched true get.last_modified)))) := by
  refine ⟨?_, ?_, ?_⟩
  · intro source destination b head get hname hget
    unfold download
    rw [hname]
    unfold Source.download_required
    dsimp only
    rw [if_neg (by simp [hget])]
  · intro p destination b meta head get cl lm hname hok hcl hlm
    unfold download Source.download_required
    rw [hname]
    dsimp only
    rw [if_neg (by simp [hok]), hcl, hlm]
    dsimp only
    constructor
    · by_cases heq : meta.len = cl ∧ meta.mtime = lm
      · rw [show (meta.len != cl || meta.mtime != lm) = false by
          simp [heq.1, heq.2]]
        simp [heq]
      · rw [show (meta.len != cl || meta.mtime != lm) = true by
          rcases Decidable.not_and_iff_or_not.mp heq with h | h <;> simp [h]]
        constructor
        · intro hcon
          by_cases hget : get.status_ok = true
          · rw [if_neg (by simp [hget])] at hcon
            cases hcon
          · rw [if_pos (by simpa using hget)] at hcon
            cases hcon
        · intro hcon
          exact absurd hcon heq
    · intro hne hget
      rw [show (meta.len != cl || meta.mtime != lm) = true by
        rcases Decidable.not_and_iff_or_not.mp hne with h | h <;> simp [h]]
      rw [if_neg (by simp [hget])]
  · intro spec destination b meta head get expected hname hdec
    unfold download Source.download_required
    rw [hname]
    dsimp only
    rw [hdec]
    dsimp only
    constructor
    · by_cases heq : meta.sha256 = expected
      · rw [show (meta.sha256 != expected) = false by simp [heq]]
        simp [heq]
      · rw [show (meta.sha256 != expected) = true by simp [heq]]
        constructor
        · intro hcon
          by_cases hget : get.status_ok = true
          · rw [if_neg (by simp [hget])] at hcon
            cases hcon
          · rw [if_pos (by simpa using hget)] at hcon
            cases hcon
        · intro hcon
          exact absurd hcon heq
    · intro hne hget
      rw [show (meta.sha256 != expected) = true by simp [hne]]
      rw [if_neg (by simp [hget])]

/-- Witness for C5: a matching S3 blob is reused; a changed length
re-fetches and stamps the server's Last-Modified; a matching Buildomat
SHA-256 is reused. -/
theorem download_spec_witness :
    download (.S3 "bin.tar") "/dl/svc/bin.tar"
        (some { len := 7, mtime := 100, sha256 := [] })
        { status_ok := true, content_length := some 7, last_modified := some 100 }
        { status_ok := true, content_length := some 7, last_modified := some 100 }
      = .ok .Reused
    ∧ download (.S3 "bin.tar") "/dl/svc/bin.tar"
        (some { len := 8, mtime := 100, sha256 := [] })
        { status_ok := true, content_length := some 7, last_modified := some 100 }
        { status_ok := true, content_length := some 7, last_modified := some 200 }
      = .ok (.Fetched true (some 200))
    ∧ download
        (.Buildomat { repo := "r", series := "s", commit := "c", artifact := "a",
                      sha256 := "00ff" })
        "/dl/svc/a" (some { len := 1, mtime := 0, sha256 := [0, 255] })
        { status_ok := true, content_length := none, last_modified := none }
        { status_ok := true, content_length := none, last_modified := none }
      = .ok .Reused := by
  refine ⟨?_, ?_, ?_⟩
  · exact ((download_spec.2.1 "bin.tar" "/dl/svc/bin.tar" "bin.tar"
      { len := 7, mtime := 100, sha256 := [] }
      { status_ok := true, content_length := some 7, last_modified := some 100 }
      { status_ok := true, content_length := some 7, last_modified := some 100 }
      7 100 (by rfl) rfl rfl rfl).1).mpr (by decide)
  · exact (download_spec.2.1 "bin.tar" "/dl/svc/bin.tar" "bin.tar"
      { len := 8, mtime := 100, sha256 := [] }
      { status_ok := true, content_length := some 7, last_modified := some 100 }
      { status_ok := true, content_length := some 7, last_modified := some 200 }
      7 100 (by rfl) rfl rfl rfl).2 (by decide) rfl
  · exact ((download_spec.2.2
      { repo := "r", series := "s", commit := "c", artifact := "a", sha256 := "00ff" }
      "/dl/svc/a" "a" { len := 1, mtime := 0, sha256 := [0, 255] }
      { status_ok := true, content_length := none, last_modified := none }
      { status_ok := true, content_length := none, last_modified := none }
      [0, 255] (by rfl) (by rfl)).1).mpr (by decide)



/-! ## Build planner (`src/config/imp.rs`)

`PackageMap::build_order` keys packages by output filename, builds a
dependency graph in a `topological_sort::TopologicalSort`, and the iterator
`PackageDependencyIter::next` repeatedly pops all nodes without incoming
edges.  The `TopologicalSort` crate is an external dependency; it is
modelled from its documented behaviour as a node set plus an edge set,
where popping a node deletes its outgoing edges. -/

/-- `Package::get_output_file` from `src/package.rs` lines 252-257. -/
def Package.get_output_file (pkg : Package) (name : String) : String :=
  match pkg.output with
  | .Zone _ => name ++ ".tar.gz"
  | .Tarball => name ++ ".tar"

/-- The `topological_sort::TopologicalSort` state: registered nodes and
directed edges `(prec, succ)`, both duplicate-free by construction. -/
structure TopologicalSort where
  nodes : List String
  edges : List (String × String)
deriving DecidableEq, Repr

/-- `TopologicalSort::insert`: register a node. -/
def TopologicalSort.insert (t : TopologicalSort) (n : String) : TopologicalSort :=
  if n ∈ t.nodes then t else { t with nodes := t.nodes ++ [n] }

/-- `TopologicalSort::add_dependency`: register both endpoints and the edge
`prec → succ`. -/
def TopologicalSort.add_dependency (t : TopologicalSort) (prec succ : String) :
    TopologicalSort :=
  let t1 := t.insert prec
  let t2 := t1.insert succ
  if (prec, succ) ∈ t2.edges then t2 else { t2 with edges := t2.edges ++ [(prec, succ)] }

/-- `TopologicalSort::pop_all`: remove and return every node with no
incoming edge; the outgoing edges of the removed nodes disappear (in the
crate, popping a node decrements the predecessor count of its
successors). -/
def TopologicalSort.popAll (t : TopologicalSort) : List String × TopologicalSort :=
  let batch := t.nodes.filter (fun n => t.edges.all (fun e => e.2 != n))
  (batch,
   { nodes := t.nodes.filter (fun n => !(batch.contains n)),
     edges := t.edges.filter (fun e => !(batch.contains e.1)) })

theorem length_filter_lt {α : Type} (p : α → Bool) (l : List α) (a : α)
    (ha : a ∈ l) (hpa : p a = false) : (l.filter p).length < l.length := by
  induction l with
  | nil => cases ha
  | cons x rest ih =>
    rcases List.mem_cons.mp ha with rfl | hmem
    · rw [List.filter_cons_of_neg (by simp [hpa])]
      exact Nat.lt_succ_of_le (List.length_filter_le p rest)
    · by_cases hx : p x = true
      · rw [List.filter_cons_of_pos hx]
        exact Nat.succ_lt_succ (ih hmem)
      · rw [List.filter_cons_of_neg (by simpa using hx)]
        exact Nat.lt_succ_of_lt (ih hmem)

theorem popAll_nodes_length (t : TopologicalSort) (hbatch : (t.popAll).1 ≠ []) :
    (t.popAll).2.nodes.length < t.nodes.length := by
  obtain ⟨a, ha⟩ := List.exists_mem_of_ne_nil _ hbatch
  have hmem : a ∈ t.nodes := List.mem_of_mem_filter ha
  have hpa : ((t.nodes.filter (fun n => t.edges.all (fun e => e.2 != n))).contains a)
      = true := List.elem_eq_true_of_mem ha
  exact length_filter_lt _ t.nodes a hmem (by
    show (!((t.nodes.filter (fun n => t.edges.all (fun e => e.2 != n))).contains a)) = false
    rw [hpa]
    rfl)

/-- The batch loop of `PackageDependencyIter::next` (`src/config/imp.rs`
lines 80-100) run to completion on the output-name graph: pop batches until
the graph is empty; an empty batch from a non-empty graph is the
"cyclic dependency" panic. -/
def popBatches (t : TopologicalSort) : Except String (List (List String)) :=
  if hnil : t.nodes.isEmpty then .ok []
  else
    if hbatch : (t.popAll).1.isEmpty then .error "cyclic dependency in package manifest!"
    else
      match popBatches (t.popAll).2 with
      | .error e => .error e
      | .ok batches => .ok ((t.popAll).1 :: batches)
termination_by t.nodes.length
decreasing_by
  exact popAll_nodes_length t (by simpa [List.isEmpty_iff] using hbatch)

/-- Insertion into the association list standing for the
`BTreeMap<OutputFile, (name, package)>` of `build_order`
(`src/config/imp.rs` lines 28-32): a later pair with an equal key replaces
the earlier value. -/
def mapInsertReplace (key : String) (val : String × Package) :
    List (String × (String × Package)) → List (String × (String × Package))
  | [] => [(key, val)]
  | (k0, v0) :: rest =>
    if key = k0 then (k0, val) :: rest
    else (k0, v0) :: mapInsertReplace key val rest

/-- The `lookup_by_output` map of `PackageMap::build_order`
(`src/config/imp.rs` lines 28-32). -/
def lookupByOutput (m : List (String × Package)) : List (String × (String × Package)) :=
  m.foldl (fun acc np => mapInsertReplace (np.2.get_output_file np.1) np acc) []

/-- The graph-construction loop of `PackageMap::build_order`
(`src/config/imp.rs` lines 36-60): local/prebuilt/manual packages are
inserted as nodes unless they are intermediate-only zones; composite
packages contribute an edge `dep → package_output` per dependency. -/
def buildGraphStep (outputs : TopologicalSort) (entry : String × (String × Package)) :
    TopologicalSort :=
  match entry.2.2.source with
  | .Composite deps =>
    deps.foldl (fun outputs dep => outputs.add_dependency dep entry.1) outputs
  | _ =>
    if (match entry.2.2.output with
        | .Zone intermediate_only => intermediate_only
        | .Tarball => false) then outputs
    else outputs.insert entry.1

def buildGraph (entries : List (String × (String × Package))) : TopologicalSort :=
  entries.foldl buildGraphStep { nodes := [], edges := [] }

/-- The per-batch lookup of `PackageDependencyIter::next`
(`src/config/imp.rs` lines 90-99): each popped output is resolved through
`lookup_by_output`; an unknown output is the "Could not find a package
which creates ..." panic. -/
def resolveBatch (lbo : List (String × (String × Package))) :
    List String → Except String (List (String × Package))
  | [] => .ok []
  | output :: rest =>
    match List.lookup output lbo with
    | some np =>
      match resolveBatch lbo rest with
      | .error e => .error e
      | .ok tail => .ok (np :: tail)
    | none => .error ("Could not find a package which creates '" ++ output ++ "'")

/-- `resolveBatch` over every batch. -/
def resolveBatches (lbo : List (String × (String × Package))) :
    List (List String) → Except String (List (List (String × Package)))
  | [] => .ok []
  | b :: bs =>
    match resolveBatch lbo b with
    | .error e => .error e
    | .ok rb =>
      match resolveBatches lbo bs with
      | .error e => .error e
      | .ok rbs => .ok (rb :: rbs)

/-- `PackageMap::build_order` (`src/config/imp.rs` lines 27-66) together
with a full run of the resulting `PackageDependencyIter`: the list of
concurrently-buildable batches, or the first panic message. -/
def build_order (m : List (String × Package)) :
    Except String (List (List (String × Package))) :=
  let lookup_by_output := lookupByOutput m
  match popBatches (buildGraph lookup_by_output) with
  | .error e => .error e
  | .ok obatches => resolveBatches lookup_by_output obatches



theorem insert_nodes_mono (t : TopologicalSort) (n x : String) (hx : x ∈ t.nodes) :
    x ∈ (t.insert n).nodes := by
  unfold TopologicalSort.insert
  split
  · exact hx
  · exact List.mem_append_left _ hx

theorem insert_mem_nodes (t : TopologicalSort) (n : String) : n ∈ (t.insert n).nodes := by
  unfold TopologicalSort.insert
  split
  next h => exact h
  next h => exact List.mem_append_right _ (List.mem_singleton.mpr rfl)

theorem insert_edges (t : TopologicalSort) (n : String) : (t.insert n).edges = t.edges := by
  unfold TopologicalSort.insert
  split <;> rfl

theorem insert_nodes_sub (t : TopologicalSort) (n x : String)
    (hx : x ∈ (t.insert n).nodes) : x ∈ t.nodes ∨ x = n := by
  unfold TopologicalSort.insert at hx
  split at hx
  · exact Or.inl hx
  · rcases List.mem_append.mp hx with h | h
    · exact Or.inl h
    · exact Or.inr (List.mem_singleton.mp h)

theorem add_dependency_nodes_mono (t : TopologicalSort) (p q x : String)
    (hx : x ∈ t.nodes) : x ∈ (t.add_dependency p q).nodes := by
  unfold TopologicalSort.add_dependency
  dsimp only
  split
  · exact insert_nodes_mono _ _ _ (insert_nodes_mono _ _ _ hx)
  · exact insert_nodes_mono _ _ _ (insert_nodes_mono _ _ _ hx)

theorem add_dependency_mem_prec (t : TopologicalSort) (p q : String) :
    p ∈ (t.add_dependency p q).nodes := by
  unfold TopologicalSort.add_dependency
  dsimp only
  split
  · exact insert_nodes_mono _ _ _ (insert_mem_nodes _ _)
  · exact insert_nodes_mono _ _ _ (insert_mem_nodes _ _)

theorem add_dependency_mem_succ (t : TopologicalSort) (p q : String) :
    q ∈ (t.add_dependency p q).nodes := by
  unfold TopologicalSort.add_dependency
  dsimp only
  split
  · exact insert_mem_nodes _ _
  · exact insert_mem_nodes _ _

theorem add_dependency_edges_mono (t : TopologicalSort) (p q : String)
    (e : String × String) (he : e ∈ t.edges) : e ∈ (t.add_dependency p q).edges := by
  unfold TopologicalSort.add_dependency
  dsimp only
  split
  · simpa [insert_edges] using he
  · simp only [insert_edges]
    exact List.mem_append_left _ (by simpa [insert_edges] using he)

theorem add_dependency_mem_edge (t : TopologicalSort) (p q : String) :
    (p, q) ∈ (t.add_dependency p q).edges := by
  unfold TopologicalSort.add_dependency
  dsimp only
  split
  next h => exact h
  next h =>
    simp only [insert_edges]
    exact List.mem_append_right _ (List.mem_singleton.mpr rfl)

theorem add_dependency_edges_sub (t : TopologicalSort) (p q : String)
    (e : String × String) (he : e ∈ (t.add_dependency p q).edges) :
    e ∈ t.edges ∨ e = (p, q) := by
  unfold TopologicalSort.add_dependency at he
  dsimp only at he
  split at he
  · left
    simpa [insert_edges] using he
  · simp only [insert_edges] at he
    have he2 : e ∈ t.edges ∨ e = (p, q) := by simpa using he
    exact he2

theorem add_dependency_nodes_sub (t : TopologicalSort) (p q x : String)
    (hx : x ∈ (t.add_dependency p q).nodes) : x ∈ t.nodes ∨ x = p ∨ x = q := by
  unfold TopologicalSort.add_dependency at hx
  dsimp only at hx
  have hx2 : x ∈ ((t.insert p).insert q).nodes := by
    split at hx
    · exact hx
    · exact hx
  rcases insert_nodes_sub _ _ _ hx2 with h | h
  · rcases insert_nodes_sub _ _ _ h with h2 | h2
    · exact Or.inl h2
    · exact Or.inr (Or.inl h2)
  · exact Or.inr (Or.inr h)

/-- The invariant that every edge's source is a registered node (true of
every graph `build_order` constructs, and preserved by popping). -/
def EdgeInv (t : TopologicalSort) : Prop := ∀ e ∈ t.edges, e.1 ∈ t.nodes

theorem insert_edgeInv (t : TopologicalSort) (n : String) (h : EdgeInv t) :
    EdgeInv (t.insert n) := by
  intro e he
  rw [insert_edges] at he
  exact insert_nodes_mono _ _ _ (h e he)

theorem add_dependency_edgeInv (t : TopologicalSort) (p q : String) (h : EdgeInv t) :
    EdgeInv (t.add_dependency p q) := by
  intro e he
  rcases add_dependency_edges_sub t p q e he with h2 | h2
  · exact add_dependency_nodes_mono _ _ _ _ (h e h2)
  · subst h2
    exact add_dependency_mem_prec _ _ _

theorem depsFold_nodes_mono (oc : String) :
    ∀ (deps : List String) (t : TopologicalSort) (x : String), x ∈ t.nodes →
      x ∈ (deps.foldl (fun outputs dep => outputs.add_dependency dep oc) t).nodes := by
  intro deps
  induction deps with
  | nil => intro t x hx; exact hx
  | cons d rest ih =>
    intro t x hx
    exact ih _ x (add_dependency_nodes_mono _ _ _ _ hx)

theorem depsFold_edges_mono (oc : String) :
    ∀ (deps : List String) (t : TopologicalSort) (e : String × String), e ∈ t.edges →
      e ∈ (deps.foldl (fun outputs dep => outputs.add_dependency dep oc) t).edges := by
  intro deps
  induction deps with
  | nil => intro t e he; exact he
  | cons d rest ih =>
    intro t e he
    exact ih _ e (add_dependency_edges_mono _ _ _ _ he)

theorem depsFold_mem_edge (oc : String) :
    ∀ (deps : List String) (t : TopologicalSort) (d : String), d ∈ deps →
      (d, oc) ∈ (deps.foldl (fun outputs dep => outputs.add_dependency dep oc) t).edges := by
  intro deps
  induction deps with
  | nil => intro t d hd; cases hd
  | cons d0 rest ih =>
    intro t d hd
    rcases List.mem_cons.mp hd with rfl | hd
    · exact depsFold_edges_mono oc rest _ _ (add_dependency_mem_edge _ _ _)
    · exact ih _ d hd

theorem depsFold_mem_prec (oc : String) :
    ∀ (deps : List String) (t : TopologicalSort) (d : String), d ∈ deps →
      d ∈ (deps.foldl (fun outputs dep => outputs.add_dependency dep oc) t).nodes := by
  intro deps
  induction deps with
  | nil => intro t d hd; cases hd
  | cons d0 rest ih =>
    intro t d hd
    rcases List.mem_cons.mp hd with rfl | hd
    · exact depsFold_nodes_mono oc rest _ _ (add_dependency_mem_prec _ _ _)
    · exact ih _ d hd

theorem depsFold_edges_sub (oc : String) :
    ∀ (deps : List String) (t : TopologicalSort) (e : String × String),
      e ∈ (deps.foldl (fun outputs dep => outputs.add_dependency dep oc) t).edges →
      e ∈ t.edges ∨ ∃ d ∈ deps, e = (d, oc) := by
  intro deps
  induction deps with
  | nil => intro t e he; exact Or.inl he
  | cons d0 rest ih =>
    intro t e he
    rcases ih _ e he with h | h
    · rcases add_dependency_edges_sub _ _ _ _ h with h2 | h2
      · exact Or.inl h2
      · exact Or.inr ⟨d0, List.mem_cons_self _ _, h2⟩
    · obtain ⟨d, hd, he2⟩ := h
      exact Or.inr ⟨d, List.mem_cons_of_mem _ hd, he2⟩

theorem depsFold_nodes_sub (oc : String) :
    ∀ (deps : List String) (t : TopologicalSort) (x : String),
      x ∈ (deps.foldl (fun outputs dep => outputs.add_dependency dep oc) t).nodes →
      x ∈ t.nodes ∨ x ∈ deps ∨ x = oc := by
  intro deps
  induction deps with
  | nil => intro t x hx; exact Or.inl hx
  | cons d0 rest ih =>
    intro t x hx
    rcases ih _ x hx with h | h | h
    · rcases add_dependency_nodes_sub _ _ _ _ h with h2 | h2 | h2
      · exact Or.inl h2
      · exact Or.inr (Or.inl (h2 ▸ List.mem_cons_self _ _))
      · exact Or.inr (Or.inr h2)
    · exact Or.inr (Or.inl (List.mem_cons_of_mem _ h))
    · exact Or.inr (Or.inr h)

theorem depsFold_edgeInv (oc : String) :
    ∀ (deps : List String) (t : TopologicalSort), EdgeInv t →
      EdgeInv (deps.foldl (fun outputs dep => outputs.add_dependency dep oc) t) := by
  intro deps
  induction deps with
  | nil => intro t h; exact h
  | cons d0 rest ih =>
    intro t h
    exact ih _ (add_dependency_edgeInv _ _ _ h)



theorem buildGraphStep_composite (t : TopologicalSort) (e : String × (String × Package))
    (deps : List String) (hsrc : e.2.2.source = .Composite deps) :
    buildGraphStep t e = deps.foldl (fun outputs dep => outputs.add_dependency dep e.1) t := by
  unfold buildGraphStep
  rw [hsrc]

theorem buildGraphStep_nodes_mono (t : TopologicalSort) (e : String × (String × Package))
    (x : String) (hx : x ∈ t.nodes) : x ∈ (buildGraphStep t e).nodes := by
  unfold buildGraphStep
  split
  · exact depsFold_nodes_mono _ _ _ _ hx
  · split
    · exact hx
    · exact insert_nodes_mono _ _ _ hx

theorem buildGraphStep_edges_mono (t : TopologicalSort) (e : String × (String × Package))
    (ed : String × String) (hed : ed ∈ t.edges) : ed ∈ (buildGraphStep t e).edges := by
  unfold buildGraphStep
  split
  · exact depsFold_edges_mono _ _ _ _ hed
  · split
    · exact hed
    · rw [insert_edges]
      exact hed

theorem buildGraphStep_edgeInv (t : TopologicalSort) (e : String × (String × Package))
    (h : EdgeInv t) : EdgeInv (buildGraphStep t e) := by
  unfold buildGraphStep
  split
  · exact depsFold_edgeInv _ _ _ h
  · split
    · exact h
    · exact insert_edgeInv _ _ h

theorem buildGraphStep_edges_sub (t : TopologicalSort) (e : String × (String × Package))
    (ed : String × String) (hed : ed ∈ (buildGraphStep t e).edges) :
    ed ∈ t.edges ∨ ∃ deps, e.2.2.source = .Composite deps ∧ ∃ d ∈ deps, ed = (d, e.1) := by
  unfold buildGraphStep at hed
  split at hed
  next deps hsrc =>
    rcases depsFold_edges_sub _ _ _ _ hed with h | h
    · exact Or.inl h
    · exact Or.inr ⟨deps, hsrc, h⟩
  next =>
    split at hed
    · exact Or.inl hed
    · rw [insert_edges] at hed
      exact Or.inl hed

theorem buildGraphStep_nodes_sub (t : TopologicalSort) (e : String × (String × Package))
    (x : String) (hx : x ∈ (buildGraphStep t e).nodes) :
    x ∈ t.nodes
    ∨ (∃ deps, e.2.2.source = .Composite deps ∧ (x ∈ deps ∨ x = e.1))
    ∨ ((∀ deps, e.2.2.source ≠ .Composite deps)
        ∧ (match e.2.2.output with | .Zone io => io | .Tarball => false) = false
        ∧ x = e.1) := by
  by_cases hcomp : ∃ deps, e.2.2.source = .Composite deps
  · obtain ⟨deps, hsrc⟩ := hcomp
    rw [buildGraphStep_composite t e deps hsrc] at hx
    rcases depsFold_nodes_sub _ _ _ _ hx with h | h | h
    · exact Or.inl h
    · exact Or.inr (Or.inl ⟨deps, hsrc, Or.inl h⟩)
    · exact Or.inr (Or.inl ⟨deps, hsrc, Or.inr h⟩)
  · push_neg at hcomp
    have hstep : buildGraphStep t e =
        if (match e.2.2.output with
            | .Zone intermediate_only => intermediate_only
            | .Tarball => false) then t else t.insert e.1 := by
      unfold buildGraphStep
      cases hsrc : e.2.2.source with
      | Composite deps => exact absurd hsrc (hcomp deps)
      | Local blobs bblobs rust paths => rfl
      | Prebuilt repo commit sha256 => rfl
      | Manual => rfl
    rw [hstep] at hx
    split at hx
    next hio => exact Or.inl hx
    next hio =>
      rcases insert_nodes_sub _ _ _ hx with h | h
      · exact Or.inl h
      · exact Or.inr (Or.inr ⟨hcomp, by simpa using hio, h⟩)

theorem graphFold_nodes_mono :
    ∀ (entries : List (String × (String × Package))) (t : TopologicalSort) (x : String),
      x ∈ t.nodes → x ∈ (entries.foldl buildGraphStep t).nodes := by
  intro entries
  induction entries with
  | nil => intro t x hx; exact hx
  | cons e rest ih => intro t x hx; exact ih _ x (buildGraphStep_nodes_mono _ _ _ hx)

theorem graphFold_edges_mono :
    ∀ (entries : List (String × (String × Package))) (t : TopologicalSort)
      (ed : String × String),
      ed ∈ t.edges → ed ∈ (entries.foldl buildGraphStep t).edges := by
  intro entries
  induction entries with
  | nil => intro t ed hed; exact hed
  | cons e rest ih => intro t ed hed; exact ih _ ed (buildGraphStep_edges_mono _ _ _ hed)

theorem graphFold_mem_edge :
    ∀ (entries : List (String × (String × Package))) (t : TopologicalSort)
      (oc nc : String) (c : Package) (deps : List String) (d : String),
      (oc, (nc, c)) ∈ entries → c.source = .Composite deps → d ∈ deps →
      (d, oc) ∈ (entries.foldl buildGraphStep t).edges := by
  intro entries
  induction entries with
  | nil => intro t oc nc c deps d hmem; cases hmem
  | cons e rest ih =>
    intro t oc nc c deps d hmem hsrc hd
    rcases List.mem_cons.mp hmem with rfl | hmem
    · rw [List.foldl_cons]
      apply graphFold_edges_mono
      rw [buildGraphStep_composite t (oc, (nc, c)) deps hsrc]
      exact depsFold_mem_edge _ _ _ _ hd
    · exact ih _ oc nc c deps d hmem hsrc hd

theorem graphFold_mem_node_dep :
    ∀ (entries : List (String × (String × Package))) (t : TopologicalSort)
      (oc nc : String) (c : Package) (deps : List String) (d : String),
      (oc, (nc, c)) ∈ entries → c.source = .Composite deps → d ∈ deps →
      d ∈ (entries.foldl buildGraphStep t).nodes := by
  intro entries
  induction entries with
  | nil => intro t oc nc c deps d hmem; cases hmem
  | cons e rest ih =>
    intro t oc nc c deps d hmem hsrc hd
    rcases List.mem_cons.mp hmem with rfl | hmem
    · rw [List.foldl_cons]
      apply graphFold_nodes_mono
      rw [buildGraphStep_composite t (oc, (nc, c)) deps hsrc]
      exact depsFold_mem_prec _ _ _ _ hd
    · exact ih _ oc nc c deps d hmem hsrc hd

theorem graphFold_edges_sub :
    ∀ (entries : List (String × (String × Package))) (t : TopologicalSort)
      (ed : String × String),
      ed ∈ (entries.foldl buildGraphStep t).edges →
      ed ∈ t.edges ∨ ∃ e ∈ entries, ∃ deps, e.2.2.source = .Composite deps ∧
        ∃ d ∈ deps, ed = (d, e.1) := by
  intro entries
  induction entries with
  | nil => intro t ed hed; exact Or.inl hed
  | cons e rest ih =>
    intro t ed hed
    rcases ih _ ed hed with h | h
    · rcases buildGraphStep_edges_sub _ _ _ h with h2 | h2
      · exact Or.inl h2
      · obtain ⟨deps, hsrc, hd⟩ := h2
        exact Or.inr ⟨e, List.mem_cons_self _ _, deps, hsrc, hd⟩
    · obtain ⟨e2, he2, rest2⟩ := h
      exact Or.inr ⟨e2, List.mem_cons_of_mem _ he2, rest2⟩

theorem graphFold_nodes_sub :
    ∀ (entries : List (String × (String × Package))) (t : TopologicalSort) (x : String),
      x ∈ (entries.foldl buildGraphStep t).nodes →
      x ∈ t.nodes ∨ ∃ e ∈ entries,
        ((∃ deps, e.2.2.source = .Composite deps ∧ (x ∈ deps ∨ x = e.1))
         ∨ ((∀ deps, e.2.2.source ≠ .Composite deps)
             ∧ (match e.2.2.output with | .Zone io => io | .Tarball => false) = false
             ∧ x = e.1)) := by
  intro entries
  induction entries with
  | nil => intro t x hx; exact Or.inl hx
  | cons e rest ih =>
    intro t x hx
    rcases ih _ x hx with h | h
    · rcases buildGraphStep_nodes_sub _ _ _ h with h2 | h2 | h2
      · exact Or.inl h2
      · exact Or.inr ⟨e, List.mem_cons_self _ _, Or.inl h2⟩
      · exact Or.inr ⟨e, List.mem_cons_self _ _, Or.inr h2⟩
    · obtain ⟨e2, he2, rest2⟩ := h
      exact Or.inr ⟨e2, List.mem_cons_of_mem _ he2, rest2⟩

theorem graphFold_edgeInv :
    ∀ (entries : List (String × (String × Package))) (t : TopologicalSort),
      EdgeInv t → EdgeInv (entries.foldl buildGraphStep t) := by
  intro entries
  induction entries with
  | nil => intro t h; exact h
  | cons e rest ih => intro t h; exact ih _ (buildGraphStep_edgeInv _ _ h)

theorem buildGraph_edgeInv (entries : List (String × (String × Package))) :
    EdgeInv (buildGraph entries) := by
  unfold buildGraph
  apply graphFold_edgeInv
  intro e he
  cases he



theorem contains_false_iff (l : List String) (a : String) :
    (l.contains a = false) ↔ a ∉ l := by
  constructor
  · intro h hmem
    have he : l.contains a = true := List.elem_eq_true_of_mem hmem
    rw [he] at h
    cases h
  · intro h
    cases hc : l.contains a with
    | false => rfl
    | true => exact absurd (List.elem_iff.mp hc) h

theorem popAll_batch_mem {t : TopologicalSort} {o : String} (ho : o ∈ (t.popAll).1) :
    o ∈ t.nodes ∧ ∀ e ∈ t.edges, e.2 ≠ o := by
  have := List.mem_filter.mp ho
  refine ⟨this.1, ?_⟩
  intro e he
  have hall := List.all_eq_true.mp this.2 e he
  simpa using hall

theorem popAll_batch_not_mem {t : TopologicalSort} {o : String}
    (hn : o ∈ t.nodes) (he : ∃ e ∈ t.edges, e.2 = o) : o ∉ (t.popAll).1 := by
  intro hcon
  obtain ⟨e, hmem, heq⟩ := he
  exact (popAll_batch_mem hcon).2 e hmem heq

theorem popAll_rest_mem {t : TopologicalSort} {n : String}
    (hn : n ∈ t.nodes) (hb : n ∉ (t.popAll).1) : n ∈ (t.popAll).2.nodes := by
  apply List.mem_filter.mpr
  refine ⟨hn, ?_⟩
  have hb2 : ((t.popAll).1.contains n) = false := (contains_false_iff _ n).mpr hb
  show (!((t.popAll).1.contains n)) = true
  rw [hb2]
  rfl

theorem popAll_rest_mem_sub {t : TopologicalSort} {n : String}
    (hn : n ∈ (t.popAll).2.nodes) : n ∈ t.nodes ∧ n ∉ (t.popAll).1 := by
  have hmf := List.mem_filter.mp hn
  refine ⟨hmf.1, ?_⟩
  have h2 : (!((t.popAll).1.contains n)) = true := hmf.2
  have h3 : ((t.popAll).1.contains n) = false := by
    cases hc : (t.popAll).1.contains n with
    | false => rfl
    | true => rw [hc] at h2; cases h2
  exact (contains_false_iff _ n).mp h3

theorem popAll_edge_keep {t : TopologicalSort} {e : String × String}
    (he : e ∈ t.edges) (hb : e.1 ∉ (t.popAll).1) : e ∈ (t.popAll).2.edges := by
  apply List.mem_filter.mpr
  refine ⟨he, ?_⟩
  have hb2 : ((t.popAll).1.contains e.1) = false := (contains_false_iff _ e.1).mpr hb
  show (!((t.popAll).1.contains e.1)) = true
  rw [hb2]
  rfl

theorem popAll_edgeInv (t : TopologicalSort) (h : EdgeInv t) : EdgeInv (t.popAll).2 := by
  intro e he
  have hmf := List.mem_filter.mp he
  have hsrc : e.1 ∉ (t.popAll).1 := by
    have h2 : (!((t.popAll).1.contains e.1)) = true := hmf.2
    have h3 : ((t.popAll).1.contains e.1) = false := by
      cases hc : (t.popAll).1.contains e.1 with
      | false => rfl
      | true => rw [hc] at h2; cases h2
    exact (contains_false_iff _ e.1).mp h3
  exact popAll_rest_mem (h e hmf.1) hsrc

theorem popBatches_eq (t : TopologicalSort) :
    popBatches t =
      if t.nodes.isEmpty then .ok []
      else if (t.popAll).1.isEmpty then .error "cyclic dependency in package manifest!"
      else
        match popBatches (t.popAll).2 with
        | .error e => .error e
        | .ok batches => .ok ((t.popAll).1 :: batches) := by
  rw [popBatches]
  simp only [dite_eq_ite]

theorem popBatches_batches_sub :
    ∀ (N : Nat) (t : TopologicalSort), t.nodes.length ≤ N →
      ∀ obs, popBatches t = .ok obs → ∀ b ∈ obs, ∀ o ∈ b, o ∈ t.nodes := by
  intro N
  induction N with
  | zero =>
    intro t ht obs h b hb o ho
    have hnil : t.nodes.isEmpty = true := by
      rw [List.isEmpty_iff, ← List.length_eq_zero]
      omega
    rw [popBatches_eq, if_pos hnil] at h
    cases h
    cases hb
  | succ N ih =>
    intro t ht obs h b hb o ho
    by_cases hnil : t.nodes.isEmpty = true
    · rw [popBatches_eq, if_pos hnil] at h
      cases h
      cases hb
    · rw [popBatches_eq, if_neg hnil] at h
      by_cases hbe : (t.popAll).1.isEmpty = true
      · rw [if_pos hbe] at h
        cases h
      · rw [if_neg hbe] at h
        cases hrec : popBatches (t.popAll).2 with
        | error e =>
          rw [hrec] at h
          cases h
        | ok obs2 =>
          rw [hrec] at h
          cases h
          rcases List.mem_cons.mp hb with rfl | hb2
          · exact (popAll_batch_mem ho).1
          · have hlen : (t.popAll).2.nodes.length ≤ N := by
              have := popAll_nodes_length t (by
                intro hcon
                exact hbe (by rw [hcon]; rfl))
              omega
            exact (popAll_rest_mem_sub (ih _ hlen obs2 hrec b hb2 o ho)).1

theorem popBatches_coverage :
    ∀ (N : Nat) (t : TopologicalSort), t.nodes.length ≤ N →
      ∀ obs, popBatches t = .ok obs →
      ∀ n ∈ t.nodes, ∃ k b, obs.get? k = some b ∧ n ∈ b := by
  intro N
  induction N with
  | zero =>
    intro t ht obs h n hn
    have : t.nodes.length = 0 := by omega
    rw [List.length_eq_zero] at this
    rw [this] at hn
    cases hn
  | succ N ih =>
    intro t ht obs h n hn
    by_cases hnil : t.nodes.isEmpty = true
    · rw [List.isEmpty_iff] at hnil
      rw [hnil] at hn
      cases hn
    · rw [popBatches_eq, if_neg (by simpa [List.isEmpty_iff] using hnil)] at h
      by_cases hbe : (t.popAll).1.isEmpty = true
      · rw [if_pos hbe] at h
        cases h
      · rw [if_neg hbe] at h
        cases hrec : popBatches (t.popAll).2 with
        | error e =>
          rw [hrec] at h
          cases h
        | ok obs2 =>
          rw [hrec] at h
          cases h
          by_cases hb : n ∈ (t.popAll).1
          · exact ⟨0, (t.popAll).1, rfl, hb⟩
          · have hlen : (t.popAll).2.nodes.length ≤ N := by
              have := popAll_nodes_length t (by
                intro hcon
                exact hbe (by rw [hcon]; rfl))
              omega
            obtain ⟨k, b, hk, hnb⟩ := ih _ hlen obs2 hrec n (popAll_rest_mem hn hb)
            exact ⟨k + 1, b, by simpa using hk, hnb⟩

theorem popBatches_edge_order :
    ∀ (N : Nat) (t : TopologicalSort), t.nodes.length ≤ N → EdgeInv t →
      ∀ obs, popBatches t = .ok obs →
      ∀ d o, (d, o) ∈ t.edges →
      ∀ k bk, obs.get? k = some bk → o ∈ bk →
      ∃ j bj, j < k ∧ obs.get? j = some bj ∧ d ∈ bj := by
  intro N
  induction N with
  | zero =>
    intro t ht hinv obs h d o he k bk hk ho
    have hnil : t.nodes.isEmpty = true := by
      rw [List.isEmpty_iff, ← List.length_eq_zero]
      omega
    rw [popBatches_eq, if_pos hnil] at h
    cases h
    cases hk
  | succ N ih =>
    intro t ht hinv obs h d o he k bk hk ho
    by_cases hnil : t.nodes.isEmpty = true
    · rw [popBatches_eq, if_pos hnil] at h
      cases h
      cases hk
    · rw [popBatches_eq, if_neg hnil] at h
      by_cases hbe : (t.popAll).1.isEmpty = true
      · rw [if_pos hbe] at h
        cases h
      · rw [if_neg hbe] at h
        cases hrec : popBatches (t.popAll).2 with
        | error e =>
          rw [hrec] at h
          cases h
        | ok obs2 =>
          rw [hrec] at h
          cases h
          cases k with
          | zero =>
            simp only [List.get?_cons_zero, Option.some.injEq] at hk
            subst hk
            exact absurd rfl ((popAll_batch_mem ho).2 (d, o) he)
          | succ k2 =>
            simp only [List.get?_cons_succ] at hk
            by_cases hd : d ∈ (t.popAll).1
            · exact ⟨0, (t.popAll).1, Nat.succ_pos _, rfl, hd⟩
            · have hlen : (t.popAll).2.nodes.length ≤ N := by
                have := popAll_nodes_length t (by
                  intro hcon
                  exact hbe (by rw [hcon]; rfl))
                omega
              have he2 : (d, o) ∈ (t.popAll).2.edges := popAll_edge_keep he hd
              obtain ⟨j, bj, hj, hjb, hdb⟩ := ih _ hlen (popAll_edgeInv t hinv) obs2 hrec
                d o he2 k2 bk hk ho
              exact ⟨j + 1, bj, Nat.succ_lt_succ hj, by simpa using hjb, hdb⟩



theorem mapInsertReplace_mem_sub (key : String) (val : String × Package) :
    ∀ (l : List (String × (String × Package))) (o : String) (np : String × Package),
      (o, np) ∈ mapInsertReplace key val l →
      (o = key ∧ np = val) ∨ (o, np) ∈ l := by
  intro l
  induction l with
  | nil =>
    intro o np h
    have h2 := List.mem_singleton.mp h
    rw [Prod.mk.injEq] at h2
    exact Or.inl h2
  | cons kv rest ih =>
    intro o np h
    obtain ⟨k0, v0⟩ := kv
    unfold mapInsertReplace at h
    split at h
    next heq =>
      rcases List.mem_cons.mp h with h2 | h2
      · rw [Prod.mk.injEq] at h2
        exact Or.inl ⟨h2.1.trans heq.symm, h2.2⟩
      · exact Or.inr (List.mem_cons_of_mem _ h2)
    next hne =>
      rcases List.mem_cons.mp h with h2 | h2
      · exact Or.inr (h2 ▸ List.mem_cons_self _ _)
      · rcases ih o np h2 with h3 | h3
        · exact Or.inl h3
        · exact Or.inr (List.mem_cons_of_mem _ h3)

theorem mapInsertReplace_mem_key (key : String) (val : String × Package) :
    ∀ (l : List (String × (String × Package))) (x : String),
      x ∈ (mapInsertReplace key val l).map Prod.fst →
      x ∈ l.map Prod.fst ∨ x = key := by
  intro l x hx
  rw [List.mem_map] at hx
  obtain ⟨⟨o, np⟩, hmem, hfst⟩ := hx
  rcases mapInsertReplace_mem_sub key val l o np hmem with h | h
  · exact Or.inr (hfst ▸ h.1)
  · exact Or.inl (List.mem_map.mpr ⟨(o, np), h, hfst⟩)

theorem mapInsertReplace_nodup (key : String) (val : String × Package) :
    ∀ (l : List (String × (String × Package))),
      (l.map Prod.fst).Nodup → ((mapInsertReplace key val l).map Prod.fst).Nodup := by
  intro l
  induction l with
  | nil => intro _; simp [mapInsertReplace]
  | cons kv rest ih =>
    intro hnd
    obtain ⟨k0, v0⟩ := kv
    rw [List.map_cons, List.nodup_cons] at hnd
    unfold mapInsertReplace
    split
    next heq =>
      rw [List.map_cons, List.nodup_cons]
      exact hnd
    next hne =>
      rw [List.map_cons, List.nodup_cons]
      refine ⟨?_, ih hnd.2⟩
      intro hcon
      rcases mapInsertReplace_mem_key key val rest k0 hcon with h | h
      · exact hnd.1 h
      · exact hne h.symm

theorem lookupByOutput_go_shape (m : List (String × Package)) :
    ∀ (suffix : List (String × Package)) (acc : List (String × (String × Package))),
      (∀ o np, (o, np) ∈ acc → o = np.2.get_output_file np.1 ∧ np ∈ m) →
      (∀ np ∈ suffix, np ∈ m) →
      ∀ o np, (o, np) ∈ suffix.foldl (fun acc np =>
          mapInsertReplace (np.2.get_output_file np.1) np acc) acc →
        o = np.2.get_output_file np.1 ∧ np ∈ m := by
  intro suffix
  induction suffix with
  | nil => intro acc hacc _ o np h; exact hacc o np h
  | cons np0 rest ih =>
    intro acc hacc hsub o np h
    rw [List.foldl_cons] at h
    refine ih _ ?_ (fun np hnp => hsub np (List.mem_cons_of_mem _ hnp)) o np h
    intro o2 np2 h2
    rcases mapInsertReplace_mem_sub _ _ _ _ _ h2 with h3 | h3
    · obtain ⟨ho, hnp⟩ := h3
      rw [hnp]
      exact ⟨ho, hsub np0 (List.mem_cons_self _ _)⟩
    · exact hacc o2 np2 h3

theorem lookupByOutput_shape (m : List (String × Package)) (o : String)
    (np : String × Package) (h : (o, np) ∈ lookupByOutput m) :
    o = np.2.get_output_file np.1 ∧ np ∈ m := by
  exact lookupByOutput_go_shape m m []
    (fun o np h => absurd h (List.not_mem_nil _)) (fun np h => h) o np h

theorem lookupByOutput_go_nodup (m : List (String × Package)) :
    ∀ (suffix : List (String × Package)) (acc : List (String × (String × Package))),
      (acc.map Prod.fst).Nodup →
      ((suffix.foldl (fun acc np =>
          mapInsertReplace (np.2.get_output_file np.1) np acc) acc).map Prod.fst).Nodup := by
  intro suffix
  induction suffix with
  | nil => intro acc h; exact h
  | cons np0 rest ih =>
    intro acc h
    rw [List.foldl_cons]
    exact ih _ (mapInsertReplace_nodup _ _ _ h)

theorem lookupByOutput_nodup (m : List (String × Package)) :
    ((lookupByOutput m).map Prod.fst).Nodup :=
  lookupByOutput_go_nodup m m [] (by simp)

theorem lookup_mem {α : Type} :
    ∀ (l : List (String × α)) (k : String) (v : α),
      List.lookup k l = some v → (k, v) ∈ l := by
  intro l
  induction l with
  | nil => intro k v h; cases h
  | cons kv rest ih =>
    intro k v h
    obtain ⟨k0, v0⟩ := kv
    simp only [List.lookup] at h
    cases hbeq : k == k0 with
    | true =>
      rw [hbeq] at h
      dsimp only at h
      cases h
      have : k = k0 := beq_iff_eq.mp hbeq
      subst this
      exact List.mem_cons_self _ _
    | false =>
      rw [hbeq] at h
      dsimp only at h
      exact List.mem_cons_of_mem _ (ih k v h)

theorem nodup_lookup {α : Type} :
    ∀ (l : List (String × α)), (l.map Prod.fst).Nodup →
      ∀ (k : String) (v : α), (k, v) ∈ l → List.lookup k l = some v := by
  intro l
  induction l with
  | nil => intro _ k v h; cases h
  | cons kv rest ih =>
    intro hnd k v h
    obtain ⟨k0, v0⟩ := kv
    rw [List.map_cons, List.nodup_cons] at hnd
    rcases List.mem_cons.mp h with h2 | h2
    · rw [Prod.mk.injEq] at h2
      obtain ⟨rfl, rfl⟩ := h2
      simp [List.lookup]
    · have hne : k ≠ k0 := by
        intro hcon
        subst hcon
        exact hnd.1 (List.mem_map.mpr ⟨(k, v), h2, rfl⟩)
      simp only [List.lookup, beq_iff_eq, hne, if_false]
      rw [show (k == k0) = false from beq_eq_false_iff_ne.mpr hne]
      dsimp only
      exact ih hnd.2 k v h2



theorem resolveBatch_mem (lbo : List (String × (String × Package))) :
    ∀ (b : List String) (rb : List (String × Package)),
      resolveBatch lbo b = .ok rb →
      (∀ np ∈ rb, ∃ o ∈ b, List.lookup o lbo = some np)
      ∧ (∀ o ∈ b, ∃ np, List.lookup o lbo = some np ∧ np ∈ rb) := by
  intro b
  induction b with
  | nil =>
    intro rb h
    cases h
    exact ⟨fun np h => absurd h (List.not_mem_nil np),
           fun o h => absurd h (List.not_mem_nil o)⟩
  | cons o0 rest ih =>
    intro rb h
    unfold resolveBatch at h
    cases hlk : List.lookup o0 lbo with
    | none =>
      rw [hlk] at h
      cases h
    | some np0 =>
      rw [hlk] at h
      dsimp only at h
      cases hrec : resolveBatch lbo rest with
      | error e =>
        rw [hrec] at h
        cases h
      | ok tail =>
        rw [hrec] at h
        dsimp only at h
        cases h
        obtain ⟨ih1, ih2⟩ := ih tail hrec
        constructor
        · intro np hnp
          rcases List.mem_cons.mp hnp with rfl | hnp
          · exact ⟨o0, List.mem_cons_self _ _, hlk⟩
          · obtain ⟨o, ho, hl⟩ := ih1 np hnp
            exact ⟨o, List.mem_cons_of_mem _ ho, hl⟩
        · intro o ho
          rcases List.mem_cons.mp ho with rfl | ho
          · exact ⟨np0, hlk, List.mem_cons_self _ _⟩
          · obtain ⟨np, hl, hm⟩ := ih2 o ho
            exact ⟨np, hl, List.mem_cons_of_mem _ hm⟩

theorem resolveBatches_get (lbo : List (String × (String × Package))) :
    ∀ (bs : List (List String)) (rbs : List (List (String × Package))),
      resolveBatches lbo bs = .ok rbs →
      (∀ k rb, rbs.get? k = some rb →
        ∃ b, bs.get? k = some b ∧ resolveBatch lbo b = .ok rb)
      ∧ (∀ k b, bs.get? k = some b →
        ∃ rb, rbs.get? k = some rb ∧ resolveBatch lbo b = .ok rb) := by
  intro bs
  induction bs with
  | nil =>
    intro rbs h
    cases h
    exact ⟨fun k rb h => by simp at h, fun k b h => by simp at h⟩
  | cons b0 rest ih =>
    intro rbs h
    unfold resolveBatches at h
    cases hr0 : resolveBatch lbo b0 with
    | error e =>
      rw [hr0] at h
      cases h
    | ok rb0 =>
      rw [hr0] at h
      dsimp only at h
      cases hrec : resolveBatches lbo rest with
      | error e =>
        rw [hrec] at h
        cases h
      | ok rbs2 =>
        rw [hrec] at h
        dsimp only at h
        cases h
        obtain ⟨ih1, ih2⟩ := ih rbs2 hrec
        constructor
        · intro k rb hk
          cases k with
          | zero =>
            simp only [List.get?_cons_zero, Option.some.injEq] at hk
            exact ⟨b0, rfl, hk ▸ hr0⟩
          | succ k2 =>
            simp only [List.get?_cons_succ] at hk
            obtain ⟨b, hbk, hres⟩ := ih1 k2 rb hk
            exact ⟨b, by simpa using hbk, hres⟩
        · intro k b hk
          cases k with
          | zero =>
            simp only [List.get?_cons_zero, Option.some.injEq] at hk
            exact ⟨rb0, rfl, hk ▸ hr0⟩
          | succ k2 =>
            simp only [List.get?_cons_succ] at hk
            obtain ⟨rb, hrb, hres⟩ := ih2 k2 b hk
            exact ⟨rb, by simpa using hrb, hres⟩

/-- C4: whenever `build_order` succeeds, its batches are a valid
topological order: if a composite package `c` in batch `k` lists output
filename `d` among its dependencies, the package producing `d` (the value
`lookup_by_output` resolves `d` to) appears in a strictly earlier batch
`j < k`; and a non-composite package marked `intermediate_only` appears in
some batch only if a composite package in the set depends on its output
filename. -/
theorem build_order_spec (m : List (String × Package))
    (batches : List (List (String × Package)))
    (hb : build_order m = .ok batches) :
    (∀ (k : Nat) (bk : List (String × Package)), batches.get? k = some bk →
      ∀ nc c, (nc, c) ∈ bk → ∀ deps, c.source = .Composite deps →
      ∀ d ∈ deps, ∃ (j : Nat) (bj : List (String × Package)) (nd : String) (pd : Package),
        j < k ∧ batches.get? j = some bj ∧
        List.lookup d (lookupByOutput m) = some (nd, pd) ∧ (nd, pd) ∈ bj)
    ∧ (∀ (n : String) (p : Package) (b : List (String × Package)),
        b ∈ batches → (n, p) ∈ b →
        p.output = .Zone true →
        (∀ deps, p.source ≠ .Composite deps) →
        ∃ (nc : String) (c : Package) (deps : List String),
          (nc, c) ∈ m ∧ c.source = .Composite deps ∧ p.get_output_file n ∈ deps) := by
  unfold build_order at hb
  dsimp only at hb
  cases hpop : popBatches (buildGraph (lookupByOutput m)) with
  | error e =>
    rw [hpop] at hb
    cases hb
  | ok obs =>
    rw [hpop] at hb
    dsimp only at hb
    constructor
    · intro k bk hk nc c hmem deps hsrc d hd
      obtain ⟨rb1, rb2⟩ := resolveBatches_get (lookupByOutput m) obs batches hb
      obtain ⟨obk, hobk, hres⟩ := rb1 k bk hk
      obtain ⟨hres1, hres2⟩ := resolveBatch_mem _ obk bk hres
      obtain ⟨o, ho, hlk⟩ := hres1 (nc, c) hmem
      have hmemlbo : (o, (nc, c)) ∈ lookupByOutput m := lookup_mem _ o (nc, c) hlk
      have hedge : (d, o) ∈ (buildGraph (lookupByOutput m)).edges := by
        unfold buildGraph
        exact graphFold_mem_edge _ _ o nc c deps d hmemlbo hsrc hd
      obtain ⟨j, obj, hj, hobj, hdj⟩ := popBatches_edge_order
        (buildGraph (lookupByOutput m)).nodes.length
        (buildGraph (lookupByOutput m)) (Nat.le_refl _)
        (buildGraph_edgeInv _) obs hpop d o hedge k obk hobk ho
      obtain ⟨bj, hbj, hresj⟩ := rb2 j obj hobj
      obtain ⟨hresj1, hresj2⟩ := resolveBatch_mem _ obj bj hresj
      obtain ⟨np, hnp, hnpmem⟩ := hresj2 d hdj
      exact ⟨j, bj, np.1, np.2, hj, hbj, by simpa using hnp, by simpa using hnpmem⟩
    · intro n p b hbmem hmem hout hnc
      obtain ⟨k, hk⟩ := List.mem_iff_get?.mp hbmem
      obtain ⟨rb1, rb2⟩ := resolveBatches_get (lookupByOutput m) obs batches hb
      obtain ⟨obk, hobk, hres⟩ := rb1 k b hk
      obtain ⟨hres1, hres2⟩ := resolveBatch_mem _ obk b hres
      obtain ⟨o, ho, hlk⟩ := hres1 (n, p) hmem
      have hmemlbo : (o, (n, p)) ∈ lookupByOutput m := lookup_mem _ o (n, p) hlk
      have hshape := lookupByOutput_shape m o (n, p) hmemlbo
      have hobkmem : obk ∈ obs := List.get?_mem hobk
      have honode : o ∈ (buildGraph (lookupByOutput m)).nodes :=
        popBatches_batches_sub (buildGraph (lookupByOutput m)).nodes.length
          (buildGraph (lookupByOutput m)) (Nat.le_refl _) obs hpop obk hobkmem o ho
      have hsub := graphFold_nodes_sub (lookupByOutput m)
        { nodes := [], edges := [] } o honode
      rcases hsub with hnil | hcase
      · cases hnil
      · obtain ⟨entry, hentry, hent⟩ := hcase
        obtain ⟨eo, enp⟩ := entry
        have hshape2 := lookupByOutput_shape m eo enp hentry
        have hlkeo : List.lookup eo (lookupByOutput m) = some enp :=
          nodup_lookup _ (lookupByOutput_nodup m) eo enp hentry
        rcases hent with ⟨deps, hsrc, hor⟩ | ⟨hncomp, hio, hxeq⟩
        · rcases hor with hdep | hoc
          · refine ⟨enp.1, enp.2, deps, ?_, hsrc, ?_⟩
            · have := hshape2.2
              simpa using this
            · rw [show p.get_output_file n = o from hshape.1.symm]
              exact hdep
          · rw [show (o : String) = eo from hoc] at hlk
            rw [hlk] at hlkeo
            have henp : enp = (n, p) := by
              injection hlkeo with h2
              exact h2.symm
            rw [henp] at hsrc
            exact absurd hsrc (hnc deps)
        · rw [show (o : String) = eo from hxeq] at hlk
          rw [hlk] at hlkeo
          have henp : enp = (n, p) := by
            injection hlkeo with h2
            exact h2.symm
          rw [henp] at hio
          rw [show ((n, p) : String × Package).2.output = p.output from rfl, hout] at hio
          cases hio



/-- The C4 witness scenario, mirroring the `test_order` unit test of
`src/config/imp.rs`: `pkg-a` (manual tarball) and `pkg-b` (a composite
containing `pkg-a.tar`). -/
def c4PkgA : Package :=
  { service_name := "a", source := .Manual, output := .Tarball,
    only_for_targets := none, setup_hint := none }

def c4PkgB : Package :=
  { service_name := "b", source := .Composite ["pkg-a.tar"], output := .Tarball,
    only_for_targets := none, setup_hint := none }

def c4Map : List (String × Package) := [("pkg-a", c4PkgA), ("pkg-b", c4PkgB)]

/-- Witness for C4: `build_order` emits batch `[pkg-a]` then `[pkg-b]`,
and by `build_order_spec` the producer of `pkg-a.tar` sits in a strictly
earlier batch than the composite `pkg-b`. -/
theorem build_order_spec_witness :
    build_order c4Map = .ok [[("pkg-a", c4PkgA)], [("pkg-b", c4PkgB)]]
    ∧ (∃ (j : Nat) (bj : List (String × Package)) (nd : String) (pd : Package), j < 1 ∧
        ([[("pkg-a", c4PkgA)], [("pkg-b", c4PkgB)]] : List (List (String × Package))).get? j
          = some bj ∧
        List.lookup "pkg-a.tar" (lookupByOutput c4Map) = some (nd, pd) ∧ (nd, pd) ∈ bj) := by
  have hG2 : ({ nodes := ["pkg-b.tar"], edges := [] } : TopologicalSort).popAll
      = (["pkg-b.tar"], { nodes := [], edges := [] }) := rfl
  have hpb2 : popBatches { nodes := [], edges := [] } = .ok [] := by
    rw [popBatches_eq]
    rfl
  have hpb1 : popBatches { nodes := ["pkg-b.tar"], edges := [] } = .ok [["pkg-b.tar"]] := by
    rw [popBatches_eq]
    rw [if_neg (by decide)]
    rw [hG2]
    dsimp only
    rw [if_neg (by decide), hpb2]
  have hG1 : (buildGraph (lookupByOutput c4Map)).popAll
      = (["pkg-a.tar"], { nodes := ["pkg-b.tar"], edges := [] }) := rfl
  have hpb0 : popBatches (buildGraph (lookupByOutput c4Map))
      = .ok [["pkg-a.tar"], ["pkg-b.tar"]] := by
    rw [popBatches_eq]
    rw [if_neg (by decide)]
    rw [hG1]
    dsimp only
    rw [if_neg (by decide), hpb1]
  have hbo : build_order c4Map = .ok [[("pkg-a", c4PkgA)], [("pkg-b", c4PkgB)]] := by
    unfold build_order
    dsimp only
    rw [hpb0]
    rfl
  refine ⟨hbo, ?_⟩
  exact (build_order_spec c4Map _ hbo).1 1 [("pkg-b", c4PkgB)] rfl "pkg-b" c4PkgB
    (List.mem_singleton.mpr rfl) ["pkg-a.tar"] rfl "pkg-a.tar" (List.mem_singleton.mpr rfl)


end OmicronPackage
